import Mathlib

/-!
Verification of the virtual DOS file system (`filesystem.py` / `utils.py`).

Strings are modelled as `List Char` (written `Str`); the nested Python
dictionaries that form the tree are modelled by the inductive type `Node`
whose directory variant carries an insertion-ordered association list of
children, mirroring Python's insertion-ordered `dict`.  Mutating operations
take an explicit `now : Nat` clock argument in place of `time.time()`.
-/

namespace DosSim

set_option maxRecDepth 200000

abbrev Str := List Char

/-- Embed a Lean string literal as a modelled string. -/
def str (s : String) : Str := s.data

/-- Path separator test used by `ntpath` (both `\` and `/`). -/
def isSep (c : Char) : Bool := c = '\\' || c = '/'

/-- `path.replace('/', '\\')` from `parse_path`. -/
def normalize (p : Str) : Str :=
  p.map (fun c => if c = '/' then '\\' else c)

/-- Python `s.split(c)` (always returns at least one piece). -/
def splitChar (c : Char) : Str → List Str
  | [] => [[]]
  | x :: xs =>
    if x = c then [] :: splitChar c xs
    else
      match splitChar c xs with
      | s :: ss => (x :: s) :: ss
      | [] => [[x]]

/-- Python `s.upper()` restricted to ASCII-style per-character uppercasing. -/
def upper (s : Str) : Str := s.map Char.toUpper

/-- The literal `"C:"`. -/
def drv : Str := ['C', ':']

/-- The literal `"C:\"`. -/
def drvS : Str := ['C', ':', '\\']

/-- The literal `"."`. -/
def dotS : Str := ['.']

/-- The literal `".."`. -/
def ddotS : Str := ['.', '.']

/-- Drive-letter normalization from `parse_path`: upper-case the segment and
truncate to two characters when longer. -/
def driveFix (s : Str) : Str :=
  let d := upper s
  if 2 < d.length then d.take 2 else d

/-- `utils.parse_path`: normalize separators, split on `\`, then fix up a
drive marker in the first segment. -/
def parse_path (p : Str) : List Str :=
  if p = [] then []
  else
    match splitChar '\\' (normalize p) with
    | [] => []
    | s0 :: rest => if (':' : Char) ∈ s0 then driveFix s0 :: rest else s0 :: rest

/-- Characters rejected by `is_valid_filename` (`[<>:"/\\|?*]`). -/
def invalidChar (c : Char) : Bool :=
  c = '<' || c = '>' || c = ':' || c = '"' || c = '/' || c = '\\' ||
  c = '|' || c = '?' || c = '*'

/-- `utils.is_valid_filename`. -/
def is_valid_filename (f : Str) : Bool :=
  if f = [] || f = dotS || f = ddotS then false
  else if f.any invalidChar then false
  else if 255 < f.length then false
  else true

/-- A node of the virtual file system: the tagged dictionaries of
`filesystem.py` (`type`, `name`, `created`, `modified`, and either
`size`/`content` for files or the child mapping for directories). -/
inductive Node where
  | file (name : Str) (created modified : Nat) (size : Nat) (content : Str)
  | dir (name : Str) (created modified : Nat) (children : List (Str × Node))

/-- Python dict lookup on the child mapping (keys are unique). -/
def lookupKey (k : Str) : List (Str × Node) → Option Node
  | [] => none
  | (k', v) :: rest => if k' = k then some v else lookupKey k rest

/-- Python dict assignment `d[k] = v`: replace in place when the key is
present (keeping its insertion position), append otherwise. -/
def setKey (k : Str) (v : Node) : List (Str × Node) → List (Str × Node)
  | [] => [(k, v)]
  | (k', v') :: rest =>
    if k' = k then (k', v) :: rest else (k', v') :: setKey k v rest

/-- Python `del d[k]`. -/
def delKey (k : Str) : List (Str × Node) → List (Str × Node)
  | [] => []
  | (k', v') :: rest =>
    if k' = k then rest else (k', v') :: delKey k rest

mutual

/-- `FileSystem._calculate_used_space`: a file contributes its `size` field,
a directory the sum over its children. -/
def usedSpace : Node → Nat
  | .file _ _ _ sz _ => sz
  | .dir _ _ _ ch => usedSpaceL ch

/-- Sum of `usedSpace` over a child list. -/
def usedSpaceL : List (Str × Node) → Nat
  | [] => 0
  | p :: rest => usedSpace p.2 + usedSpaceL rest

end

mutual

/-- The size invariant stated by the specification: every File's `size`
field equals the length of its `content`. -/
def sizeInv : Node → Bool
  | .file _ _ _ sz co => sz = co.length
  | .dir _ _ _ ch => sizeInvL ch

/-- `sizeInv` over a child list. -/
def sizeInvL : List (Str × Node) → Bool
  | [] => true
  | p :: rest => sizeInv p.2 && sizeInvL rest

end

/-- Follow a list of child keys (a spine) downward from a node. -/
def nodeAtSpine : Node → List Str → Option Node
  | n, [] => some n
  | .file _ _ _ _ _, _ :: _ => none
  | .dir _ _ _ ch, k :: ks =>
    match lookupKey k ch with
    | some c => nodeAtSpine c ks
    | none => none

/-- Rewrite the node at the end of a spine (identity when the spine is
dangling); models in-place mutation through a reference into the tree. -/
def updateAtSpine (n : Node) (spine : List Str) (f : Node → Node) : Node :=
  match spine, n with
  | [], n => f n
  | k :: ks, .dir nm c m ch =>
    match lookupKey k ch with
    | some child => .dir nm c m (setKey k (updateAtSpine child ks f) ch)
    | none => .dir nm c m ch
  | _ :: _, n => n

/-- The traversal loop of `_get_node_at_path` (lines 98-121): walk the parsed
segments from an anchor node, skipping empty segments, failing on non-directory
nodes, and (when `create` is set) synthesizing an empty directory for a missing
segment that is not at the last index.  Returns the spine of child keys taken
(hence the resolved node's location) and the updated subtree (creations
persist even when the walk subsequently fails, as in the source). -/
def walkSpine (cur : Node) (parts : List Str) (create : Bool) (now : Nat) :
    Option (List Str) × Node :=
  match parts with
  | [] => (some [], cur)
  | part :: rest =>
    if part = [] then walkSpine cur rest create now
    else
      match cur with
      | .file n c m s co => (none, .file n c m s co)
      | .dir n c m ch =>
        match lookupKey part ch with
        | some child =>
          let r := walkSpine child rest create now
          (r.1.map (part :: ·), .dir n c m (setKey part r.2 ch))
        | none =>
          if create && !rest.isEmpty then
            let r := walkSpine (Node.dir part now now []) rest create now
            (r.1.map (part :: ·), .dir n c m (ch ++ [(part, r.2)]))
          else (none, .dir n c m ch)

/-- The file-system state: root tree, current-directory segment sequence and
total capacity.  (`used_space` is recomputed from the root on every
`get_free_space` call in the source, so it is not carried as state.) -/
structure FileSystem where
  root : Node
  current_path : List Str
  total_space : Nat

/-- Python `"\\".join(parts)`. -/
def joinBS : List Str → Str
  | [] => []
  | [s] => s
  | s :: rest => s ++ '\\' :: joinBS rest

/-- Spine of the current-directory node: models `_get_current_node`, i.e.
`_get_node_at_path("\\".join(current_path))`.  That inner call terminates in
Python only when the joined current path is empty, a drive literal, or parses
with a `"C:"` head (otherwise `_get_node_at_path` would re-enter
`_get_current_node` unboundedly); the non-terminating case is modelled as
resolution failure. -/
def currentSpine (root : Node) (cp : List Str) : Option (List Str) :=
  let p := joinBS cp
  if p = [] ∨ p = drv ∨ p = drvS then some []
  else
    match parse_path p with
    | [] => some []
    | s0 :: rest => if s0 = drv then (walkSpine root rest false 0).1 else none

/-- Anchor-selection stage of `_get_node_at_path` (lines 69-96): the literal
root checks, the parse, and the absolute / leading-`".."` / leading-`"."`
anchor handling.  Returns the anchor's spine (from the root; `none` models the
calls that cannot produce a node — a malformed current path) together with
the segments still to be walked from the anchor. -/
def pathAnchor (fs : FileSystem) (path : Str) :
    Option (List Str) × List Str :=
  if path = [] ∨ path = drv ∨ path = drvS then (some [], [])
  else
    match parse_path path with
    | [] => (some [], [])
    | s0 :: rest =>
      if s0 = drv then (some [], rest)
      else
        let parts := s0 :: rest
        let pa : List Str × Option (List Str) :=
          if s0 = ddotS then
            if 1 < fs.current_path.length then
              (rest, currentSpine fs.root fs.current_path.dropLast)
            else (rest, some [])
          else (parts, currentSpine fs.root fs.current_path)
        let parts2 :=
          match pa.1 with
          | q0 :: qrest => if q0 = dotS then qrest else pa.1
          | [] => pa.1
        (pa.2, parts2)

/-- `FileSystem._get_node_at_path`: anchor selection followed by the traversal
walk.  Returns the spine of the resolved node (from the root) and the updated
root (`create_dirs` mutations persist even when resolution fails). -/
def getNodeSpine (fs : FileSystem) (path : Str) (create : Bool) (now : Nat) :
    Option (List Str) × Node :=
  match (pathAnchor fs path).1 with
  | none => (none, fs.root)
  | some a =>
    match nodeAtSpine fs.root a with
    | none => (none, fs.root)
    | some anode =>
      let r := walkSpine anode (pathAnchor fs path).2 create now
      (r.1.map (a ++ ·), updateAtSpine fs.root a (fun _ => r.2))

/-- The `\\?\UNC\` prefix recognised by `ntpath.splitdrive`. -/
def uncQPrefix : Str := ['\\', '\\', '?', '\\', 'U', 'N', 'C', '\\']

/-- `os.path.splitdrive`, modelled with Windows (`ntpath`, CPython 3.11)
semantics — which the program's DOS-style backslash paths assume: a
two-character `X:` drive, or a `\\server\share` UNC anchor, is split off the
front. -/
def splitdrive (p : Str) : Str × Str :=
  if 2 ≤ p.length then
    let normp := normalize p
    if normp.take 2 = ['\\', '\\'] then
      -- UNC or device drives: everything up to the separator after the share
      let start := if upper (normp.take 8) = uncQPrefix then 8 else 2
      match (normp.drop start).findIdx? (· = '\\') with
      | none => (p, [])
      | some i =>
        match (normp.drop (start + i + 1)).findIdx? (· = '\\') with
        | none => (p, [])
        | some j => (p.take (start + i + 1 + j), p.drop (start + i + 1 + j))
    else if (normp.drop 1).take 1 = [':'] then (p.take 2, p.drop 2)
    else ([], p)
  else ([], p)

/-- Drop trailing separators (`head.rstrip` step of `ntpath.split`). -/
def rstripSeps (s : Str) : Str :=
  (s.reverse.dropWhile (fun c => isSep c)).reverse

/-- `os.path.split` (`ntpath`): split off the drive, cut after the last
separator, and strip trailing separators from the head unless it is all
separators. -/
def nt_split (p : Str) : Str × Str :=
  let dr := splitdrive p
  let tail := (dr.2.reverse.takeWhile (fun c => !isSep c)).reverse
  let head := dr.2.take (dr.2.length - tail.length)
  let head2 := rstripSeps head
  (dr.1 ++ (if head2 = [] then head else head2), tail)

/-- Pure resolution (`_get_node_at_path` without `create_dirs`): spine only. -/
def resolveSpine (fs : FileSystem) (path : Str) : Option (List Str) :=
  (getNodeSpine fs path false 0).1

/-- `FileSystem.resolve_path`: the node returned by resolution. -/
def resolveNode (fs : FileSystem) (path : Str) : Option Node :=
  let r := getNodeSpine fs path false 0
  r.1.bind (nodeAtSpine r.2)

/-- `FileSystem.get_free_space`: total capacity minus the recomputed used
space (an integer, since nothing in the data model forces
`used_space ≤ total_space`). -/
def get_free_space (fs : FileSystem) : Int :=
  (fs.total_space : Int) - (usedSpace fs.root : Int)

/-- `FileSystem.read_file`: the content, when the path resolves to a file. -/
def read_file (fs : FileSystem) (path : Str) : Option Str :=
  match resolveNode fs path with
  | some (.file _ _ _ _ content) => some content
  | _ => none

/-- Outcome of `write_file`: `ok` models `return True`; the other three model
the `ValueError` (invalid filename / invalid directory) and `IOError`
(insufficient disk space) exceptions the source raises. -/
inductive WStatus where
  | ok
  | invalidName
  | invalidDir
  | noSpace
deriving DecidableEq

/-- `FileSystem.write_file`.  The returned state is the file system after the
call even in the exceptional cases, because the `create_dirs` resolution of
the parent mutates the tree before any exception is raised. -/
def write_file (fs : FileSystem) (path content : Str) (now : Nat) :
    WStatus × FileSystem :=
  let db := nt_split path
  if !is_valid_filename db.2 then (.invalidName, fs)
  else
    let dpath := if db.1 = [] then dotS else db.1
    let r := getNodeSpine fs dpath true now
    let fs1 : FileSystem := { fs with root := r.2 }
    match r.1 with
    | none => (.invalidDir, fs1)
    | some ps =>
      match nodeAtSpine fs1.root ps with
      | some (.dir pn pc _ pch) =>
        let fileSize := content.length
        let existingSize : Nat :=
          match lookupKey db.2 pch with
          | some (.file _ _ _ sz _) => sz
          | _ => 0
        if get_free_space fs1 + (existingSize : Int) < (fileSize : Int) then
          (.noSpace, fs1)
        else
          let newChildren :=
            match lookupKey db.2 pch with
            | some (.file fn fc _ _ _) =>
              setKey db.2 (.file fn fc now fileSize content) pch
            | _ =>
              setKey db.2 (.file db.2 now now fileSize content) pch
          (.ok, { fs1 with
                  root := updateAtSpine fs1.root ps
                    (fun _ => .dir pn pc now newChildren) })
      | _ => (.invalidDir, fs1)

/-- The relative-branch loop of `change_directory`: `..` pops (never above the
root), `.` and empty segments are skipped, anything else is appended. -/
def cdRel (cp : List Str) : List Str → List Str
  | [] => cp
  | part :: rest =>
    if part = ddotS then
      cdRel (if 1 < cp.length then cp.dropLast else cp) rest
    else if part = dotS || part = [] then cdRel cp rest
    else cdRel (cp ++ [part]) rest

/-- `FileSystem.change_directory`: resolve the path (failure leaves the state
unchanged and returns `false`); on success update `current_path` by the
literal `".."`/`"."` rules, wholesale replacement for a path that starts with
the exact text `"C:"`, or the relative append/pop loop. -/
def change_directory (fs : FileSystem) (path : Str) : Bool × FileSystem :=
  match resolveNode fs path with
  | some (.dir _ _ _ _) =>
    if path = ddotS then
      (true, if 1 < fs.current_path.length then
               { fs with current_path := fs.current_path.dropLast }
             else fs)
    else if path = dotS then (true, fs)
    else if path.take 2 = drv then
      match parse_path path with
      | s0 :: rest =>
        if s0 = drv then (true, { fs with current_path := s0 :: rest })
        else (true, fs)
      | [] => (true, fs)
    else (true, { fs with current_path := cdRel fs.current_path (parse_path path) })
  | _ => (false, fs)

/-- `FileSystem.create_directory`. -/
def create_directory (fs : FileSystem) (path : Str) (now : Nat) :
    Bool × FileSystem :=
  let db := nt_split path
  if !is_valid_filename db.2 then (false, fs)
  else
    let dpath := if db.1 = [] then dotS else db.1
    match (getNodeSpine fs dpath false 0).1 with
    | none => (false, fs)
    | some ps =>
      match nodeAtSpine fs.root ps with
      | some (.dir pn pc _ pch) =>
        if (lookupKey db.2 pch).isSome then (false, fs)
        else
          (true, { fs with
                   root := updateAtSpine fs.root ps
                     (fun _ => .dir pn pc now
                       (pch ++ [(db.2, .dir db.2 now now [])])) })
      | _ => (false, fs)

/-- `FileSystem.remove_directory`: never recursive — a non-empty target makes
the call fail before any mutation. -/
def remove_directory (fs : FileSystem) (path : Str) (now : Nat) :
    Bool × FileSystem :=
  let db := nt_split path
  let dpath := if db.1 = [] then dotS else db.1
  match (getNodeSpine fs dpath false 0).1 with
  | none => (false, fs)
  | some ps =>
    match nodeAtSpine fs.root ps with
    | some (.dir pn pc _ pch) =>
      match lookupKey db.2 pch with
      | some (.dir _ _ _ dch) =>
        if !dch.isEmpty then (false, fs)
        else
          (true, { fs with
                   root := updateAtSpine fs.root ps
                     (fun _ => .dir pn pc now (delKey db.2 pch)) })
      | _ => (false, fs)
    | _ => (false, fs)

/-- `FileSystem.delete_file`. -/
def delete_file (fs : FileSystem) (path : Str) (now : Nat) :
    Bool × FileSystem :=
  let db := nt_split path
  let dpath := if db.1 = [] then dotS else db.1
  match (getNodeSpine fs dpath false 0).1 with
  | none => (false, fs)
  | some ps =>
    match nodeAtSpine fs.root ps with
    | some (.dir pn pc _ pch) =>
      match lookupKey db.2 pch with
      | some (.file _ _ _ _ _) =>
        (true, { fs with
                 root := updateAtSpine fs.root ps
                   (fun _ => .dir pn pc now (delKey db.2 pch)) })
      | _ => (false, fs)
    | _ => (false, fs)

/-- Overwrite the `name` field of a node (`node["name"] = newname`). -/
def setName (n : Node) (newname : Str) : Node :=
  match n with
  | .file _ c m s co => .file newname c m s co
  | .dir _ c m ch => .dir newname c m ch

/-- `FileSystem.rename_file`: re-key the entry (append under the new name,
delete the old key) after validating the new name and checking that it is not
already occupied — a check the entry's own current name also trips. -/
def rename_file (fs : FileSystem) (oldpath newname : Str) (now : Nat) :
    Bool × FileSystem :=
  let db := nt_split oldpath
  if !is_valid_filename newname then (false, fs)
  else
    let dpath := if db.1 = [] then dotS else db.1
    match (getNodeSpine fs dpath false 0).1 with
    | none => (false, fs)
    | some ps =>
      match nodeAtSpine fs.root ps with
      | some (.dir pn pc _ pch) =>
        match lookupKey db.2 pch with
        | none => (false, fs)
        | some nd =>
          if (lookupKey newname pch).isSome then (false, fs)
          else
            (true, { fs with
                     root := updateAtSpine fs.root ps
                       (fun _ => .dir pn pc now
                         (delKey db.2 (pch ++ [(newname, setName nd newname)]))) })
      | _ => (false, fs)

/-- `FileSystem.copy_file`: read the source, then `write_file`, catching any
exception as `False` (the partially mutated state persists, as in Python). -/
def copy_file (fs : FileSystem) (source destination : Str) (now : Nat) :
    Bool × FileSystem :=
  match read_file fs source with
  | none => (false, fs)
  | some content =>
    let r := write_file fs destination content now
    if r.1 = .ok then (true, r.2) else (false, r.2)

/-- Entry type tag used by directory listings. -/
inductive EType where
  | dir
  | file
deriving DecidableEq

/-- One row of a `list_directory` result (name, type, size, timestamps). -/
structure Entry where
  name : Str
  etype : EType
  size : Nat
  created : Nat
  modified : Nat
deriving DecidableEq

/-- Type tag of a node. -/
def nodeEType : Node → EType
  | .file _ _ _ _ _ => .file
  | .dir _ _ _ _ => .dir

/-- `item.get("size", 0)`: files report their size, directories 0. -/
def entrySize : Node → Nat
  | .file _ _ _ sz _ => sz
  | .dir _ _ _ _ => 0

/-- `created` timestamp of a node. -/
def nodeCreated : Node → Nat
  | .file _ c _ _ _ => c
  | .dir _ c _ _ => c

/-- `modified` timestamp of a node. -/
def nodeModified : Node → Nat
  | .file _ _ m _ _ => m
  | .dir _ _ m _ => m

/-- `FileSystem.list_directory`: a synthesized `"."` entry, a `".."` entry
whenever the path argument is not literally `"C:"` or `"C:\"` (timestamps of
the node resolved from `".."` when the path is `"."`, else from the path's
`os.path.dirname`; the directory's own timestamps when that resolution fails),
then one entry per child in insertion order. -/
def list_directory (fs : FileSystem) (path : Str) : List Entry :=
  match resolveNode fs path with
  | some (.dir _ nc nm ch) =>
    let dotE : Entry := ⟨dotS, .dir, 0, nc, nm⟩
    let rest : List Entry :=
      if path ≠ drv ∧ path ≠ drvS then
        let ppath := if path = dotS then ddotS else (nt_split path).1
        let pt : Nat × Nat :=
          match resolveNode fs ppath with
          | some pn => (nodeCreated pn, nodeModified pn)
          | none => (nc, nm)
        [⟨ddotS, .dir, 0, pt.1, pt.2⟩]
      else []
    dotE :: rest ++ ch.map (fun kv =>
      ⟨kv.1, nodeEType kv.2, entrySize kv.2, nodeCreated kv.2, nodeModified kv.2⟩)
  | _ => []

/-- The seed README file content from `FileSystem.__init__`. -/
def readmeText : Str :=
  str "Welcome to DOS-Simulator!\n\nThis is a Python-based simulation of an MS-DOS like environment.\nType HELP to see available commands.\n\nEnjoy exploring the virtual DOS system!"

/-- The root tree built by `FileSystem.__init__` (all construction-time
timestamps modelled by a single clock value `t0`). -/
def initRoot (t0 : Nat) : Node :=
  .dir drv t0 t0
    [(str "DOS", .dir (str "DOS") t0 t0
      [(str "README.TXT", .file (str "README.TXT") t0 t0 177 readmeText)])]

/-- The freshly constructed file system: seed tree, current directory `C:`,
10 MB capacity. -/
def initFS (t0 : Nat) : FileSystem :=
  ⟨initRoot t0, [drv], 10 * 1024 * 1024⟩

/-- `dirname or "."`: the parent path handed to resolution by the
file/directory operations. -/
def dirOr (d : Str) : Str := if d = [] then dotS else d

/-- The nonempty segments of a parsed path — exactly the child keys a
traversal walk takes. -/
def fNE (parts : List Str) : List Str := parts.filter (fun s => !s.isEmpty)

/-- The leading-`"."` trim applied by `_get_node_at_path` (lines 95-96) to
the segments left after a leading-`".."` anchor (names the corresponding
match inside `pathAnchor`). -/
def dTrim (l : List Str) : List Str :=
  match l with
  | q0 :: qrest => if q0 = dotS then qrest else l
  | [] => l

/-- A tree whose root has a subdirectory `a` containing a subdirectory whose
name is the literal text `C:` (such names arise from `create_dirs` on
intermediate segments, which are not validated). -/
def colonRoot : Node :=
  .dir drv 0 0 [(str "a", .dir (str "a") 0 0 [(drv, .dir drv 0 0 [])])]

/-- State sitting in `C:\a` over `colonRoot`. -/
def colonFS : FileSystem := ⟨colonRoot, [drv, str "a"], 1000⟩

/-- A one-file system near capacity: a 100-byte file under a 120-byte total. -/
def tinyFS : FileSystem :=
  ⟨.dir drv 0 0 [(str "F", .file (str "F") 0 0 100 (List.replicate 100 'x'))],
   [drv], 120⟩

/-- The initial file system after `change_directory("DOS")`. -/
def dosFS : FileSystem := (change_directory (initFS 0) (str "DOS")).2

/-! ## Helper lemmas about the child mapping and traversal -/

theorem lookupKey_setKey_self (k : Str) (v : Node) (l : List (Str × Node)) :
    lookupKey k (setKey k v l) = some v := by
  induction l with
  | nil => simp [setKey, lookupKey]
  | cons hd tl ih =>
    by_cases h : hd.1 = k
    · simp [setKey, lookupKey, h]
    · simp [setKey, lookupKey, h, ih]

theorem lookupKey_setKey_ne (k k' : Str) (v : Node) (l : List (Str × Node))
    (h : k' ≠ k) : lookupKey k' (setKey k v l) = lookupKey k' l := by
  induction l with
  | nil => simp [setKey, lookupKey, Ne.symm h]
  | cons hd tl ih =>
    obtain ⟨k0, v0⟩ := hd
    by_cases hh : k0 = k
    · subst hh
      simp [setKey, lookupKey, Ne.symm h]
    · simp [setKey, lookupKey, hh, ih]

theorem setKey_of_lookup_eq (k : Str) (v : Node) (l : List (Str × Node))
    (h : lookupKey k l = some v) : setKey k v l = l := by
  induction l with
  | nil => simp [lookupKey] at h
  | cons hd tl ih =>
    obtain ⟨k0, v0⟩ := hd
    by_cases hh : k0 = k
    · simp [lookupKey, hh] at h
      simp [setKey, hh, h]
    · simp [lookupKey, hh] at h
      simp [setKey, hh, ih h]

theorem lookupKey_append (k : Str) (l₁ l₂ : List (Str × Node)) :
    lookupKey k (l₁ ++ l₂) =
      match lookupKey k l₁ with
      | some v => some v
      | none => lookupKey k l₂ := by
  induction l₁ with
  | nil => simp [lookupKey]
  | cons hd tl ih =>
    by_cases hh : hd.1 = k
    · simp [lookupKey, hh]
    · simp [lookupKey, hh, ih]

/-- Walking without `create_dirs` never modifies the tree. -/
theorem walkSpine_false_snd (cur : Node) (parts : List Str) (now : Nat) :
    (walkSpine cur parts false now).2 = cur := by
  induction parts generalizing cur with
  | nil => simp [walkSpine]
  | cons part rest ih =>
    by_cases hp : part = ([] : Str)
    · simpa [walkSpine, hp] using ih cur
    · match cur with
      | .file n c m s co => simp [walkSpine, hp]
      | .dir n c m ch =>
        match hl : lookupKey part ch with
        | some child =>
          simp only [walkSpine, if_neg hp, hl]
          exact congrArg _ (by rw [ih child, setKey_of_lookup_eq _ _ _ hl])
        | none => simp [walkSpine, hp, hl]

/-- Walking without `create_dirs` does not depend on the clock. -/
theorem walkSpine_false_fst (cur : Node) (parts : List Str) (now : Nat) :
    (walkSpine cur parts false now).1 = (walkSpine cur parts false 0).1 := by
  induction parts generalizing cur with
  | nil => simp [walkSpine]
  | cons part rest ih =>
    by_cases hp : part = ([] : Str)
    · simpa [walkSpine, hp] using ih cur
    · match cur with
      | .file n c m s co => simp [walkSpine, hp]
      | .dir n c m ch =>
        match hl : lookupKey part ch with
        | some child => simp [walkSpine, hp, hl, ih child]
        | none => simp [walkSpine, hp, hl]

/-- Characterization of a plain walk: it succeeds exactly when the chain of
nonempty segments exists below the anchor, and the spine it reports is that
chain. -/
theorem walkSpine_false_fst_char (cur : Node) (parts : List Str) (now : Nat) :
    (walkSpine cur parts false now).1 =
      (nodeAtSpine cur (fNE parts)).map (fun _ => fNE parts) := by
  induction parts generalizing cur with
  | nil => simp [walkSpine, fNE, nodeAtSpine]
  | cons part rest ih =>
    by_cases hp : part = ([] : Str)
    · subst hp
      simpa [walkSpine, fNE] using ih cur
    · have hfne : fNE (part :: rest) = part :: fNE rest := by
        simp [fNE, hp]
      match cur with
      | .file n c m s co => simp [walkSpine, hp, hfne, nodeAtSpine]
      | .dir n c m ch =>
        match hl : lookupKey part ch with
        | some child =>
          simp only [walkSpine, if_neg hp, hl, hfne, nodeAtSpine, ih child]
          cases nodeAtSpine child (fNE rest) <;> simp
        | none => simp [walkSpine, hp, hl, hfne, nodeAtSpine]

/-- When a plain walk already succeeds, walking with `create_dirs` makes the
same decisions: same spine, no tree change. -/
theorem walkSpine_create_of_resolved (cur : Node) (parts : List Str)
    (create : Bool) (now n0 : Nat) (s : List Str)
    (h : (walkSpine cur parts false n0).1 = some s) :
    walkSpine cur parts create now = (some s, cur) := by
  induction parts generalizing cur s with
  | nil =>
    simp [walkSpine] at h
    simp [walkSpine, h]
  | cons part rest ih =>
    by_cases hp : part = ([] : Str)
    · subst hp
      simp only [walkSpine, if_pos rfl] at h ⊢
      exact ih cur s h
    · match cur with
      | .file n c m sz co => simp [walkSpine, hp] at h
      | .dir n c m ch =>
        match hl : lookupKey part ch with
        | some child =>
          simp only [walkSpine, if_neg hp, hl] at h ⊢
          match hs : (walkSpine child rest false n0).1 with
          | none => simp [hs] at h
          | some s' =>
            rw [hs] at h
            simp at h
            rw [ih child s' hs]
            simp [← h, setKey_of_lookup_eq _ _ _ hl]
        | none => simp [walkSpine, hp, hl] at h

/-- Spines compose. -/
theorem nodeAtSpine_append (n : Node) (a b : List Str) :
    nodeAtSpine n (a ++ b) = (nodeAtSpine n a).bind (fun m => nodeAtSpine m b) := by
  induction a generalizing n with
  | nil => simp [nodeAtSpine]
  | cons k ks ih =>
    match n with
    | .file nm c m sz co => simp [nodeAtSpine]
    | .dir nm c m ch =>
      match hl : lookupKey k ch with
      | some child => simp [nodeAtSpine, hl, ih child]
      | none => simp [nodeAtSpine, hl]

/-- Reading back through an update at the same spine. -/
theorem nodeAtSpine_updateAtSpine_self (n : Node) (s : List Str) (f : Node → Node) :
    nodeAtSpine (updateAtSpine n s f) s = (nodeAtSpine n s).map f := by
  induction s generalizing n with
  | nil => simp [updateAtSpine, nodeAtSpine]
  | cons k ks ih =>
    match n with
    | .file nm c m sz co => simp [updateAtSpine, nodeAtSpine]
    | .dir nm c m ch =>
      match hl : lookupKey k ch with
      | some child =>
        simp [updateAtSpine, nodeAtSpine, hl, lookupKey_setKey_self, ih child]
      | none => simp [updateAtSpine, nodeAtSpine, hl]

/-- Rewriting the node a spine already points at with itself is the identity. -/
theorem updateAtSpine_id_of (n : Node) (s : List Str) (m : Node)
    (h : nodeAtSpine n s = some m) :
    updateAtSpine n s (fun _ => m) = n := by
  induction s generalizing n m with
  | nil =>
    simp [nodeAtSpine] at h
    simp [updateAtSpine, h]
  | cons k ks ih =>
    match n with
    | .file nm c m' sz co => simp [nodeAtSpine] at h
    | .dir nm c m' ch =>
      match hl : lookupKey k ch with
      | some child =>
        simp only [nodeAtSpine, hl] at h
        simp [updateAtSpine, hl, ih child m h, setKey_of_lookup_eq _ _ _ hl]
      | none => simp [nodeAtSpine, hl] at h

/-- Resolution without `create_dirs` leaves the root unchanged. -/
theorem getNodeSpine_false_snd (fs : FileSystem) (path : Str) (now : Nat) :
    (getNodeSpine fs path false now).2 = fs.root := by
  rcases hpa : pathAnchor fs path with ⟨a?, parts2⟩
  match a? with
  | none => simp [getNodeSpine, hpa]
  | some a =>
    match ha : nodeAtSpine fs.root a with
    | none => simp [getNodeSpine, hpa, ha]
    | some anode =>
      simp only [getNodeSpine, hpa, ha]
      rw [walkSpine_false_snd]
      simp [updateAtSpine_id_of fs.root a anode ha]

/-- `resolve_path` reads the resolved spine in the unchanged root. -/
theorem resolveNode_eq (fs : FileSystem) (path : Str) :
    resolveNode fs path = (resolveSpine fs path).bind (nodeAtSpine fs.root) := by
  simp only [resolveNode, resolveSpine]
  rw [getNodeSpine_false_snd]

/-! ## C5: directory removal is never recursive -/

/-- Claim C5: for every path denoting (via `remove_directory`'s own
parent/basename decomposition) a Directory that contains at least one child,
`remove_directory` fails and leaves the entire state unchanged; and whenever
`remove_directory` succeeds, the removed target was an empty Directory —
removal is never recursive. -/
theorem C5_remove_directory_never_recursive (fs : FileSystem) (path : Str)
    (now : Nat) :
    (∀ ps pn pc pm pch dn dc dm dch,
      resolveSpine fs (dirOr (nt_split path).1) = some ps →
      nodeAtSpine fs.root ps = some (.dir pn pc pm pch) →
      lookupKey (nt_split path).2 pch = some (.dir dn dc dm dch) →
      dch ≠ [] →
      remove_directory fs path now = (false, fs)) ∧
    ((remove_directory fs path now).1 = true →
      ∃ ps pn pc pm pch dn dc dm,
        resolveSpine fs (dirOr (nt_split path).1) = some ps ∧
        nodeAtSpine fs.root ps = some (.dir pn pc pm pch) ∧
        lookupKey (nt_split path).2 pch = some (.dir dn dc dm [])) := by
  constructor
  · intro ps pn pc pm pch dn dc dm dch hres hnode hlook hne
    simp only [resolveSpine, dirOr] at hres
    simp only [remove_directory, hres, hnode, hlook]
    simp [hne]
  · intro h
    simp only [remove_directory] at h
    rcases hres : (getNodeSpine fs (if (nt_split path).1 = [] then dotS
        else (nt_split path).1) false 0).1 with _ | ps
    · rw [hres] at h
      simp at h
    · rw [hres] at h
      simp only [Option.some.injEq] at h
      rcases hnode : nodeAtSpine fs.root ps with _ | nd
      · simp only [hnode] at h
        simp at h
      · match nd, hnode with
        | .file fn fc fm fsz fco, hnode =>
          simp only [hnode] at h
          simp at h
        | .dir pn pc pm pch, hnode =>
          simp only [hnode] at h
          rcases hlook : lookupKey (nt_split path).2 pch with _ | tgt
          · simp only [hlook] at h
            simp at h
          · match tgt, hlook with
            | .file fn fc fm fsz fco, hlook =>
              simp only [hlook] at h
              simp at h
            | .dir dn dc dm dch, hlook =>
              simp only [hlook] at h
              by_cases hde : dch.isEmpty
              · refine ⟨ps, pn, pc, pm, pch, dn, dc, dm, ?_, hnode, ?_⟩
                · simpa [resolveSpine, dirOr] using hres
                · rwa [List.isEmpty_iff.mp hde] at hlook
              · simp [hde] at h

/-- Witness for C5: removing the seed `DOS` directory (which contains
`README.TXT`) fails and leaves the state unchanged. -/
theorem C5_remove_directory_never_recursive_witness :
    remove_directory (initFS 0) (str "DOS") 7 = (false, initFS 0) :=
  (C5_remove_directory_never_recursive (initFS 0) (str "DOS") 7).1
    _ _ _ _ _ _ _ _ _ rfl rfl rfl (by simp)

/-! ## C10: rename to the entry's own name always fails -/

/-- Claim C10: for every existing entry, `rename_file` with a new name equal
to the entry's own current name (the key under which it is listed) returns
`false` and leaves the state unchanged, because the name-conflict check counts
the entry itself as occupying the name. -/
theorem C10_rename_self_fails (fs : FileSystem) (oldpath : Str) (now : Nat)
    (ps : List Str) (pn : Str) (pc pm : Nat) (pch : List (Str × Node))
    (hres : resolveSpine fs (dirOr (nt_split oldpath).1) = some ps)
    (hnode : nodeAtSpine fs.root ps = some (.dir pn pc pm pch))
    (hlook : (lookupKey (nt_split oldpath).2 pch).isSome = true) :
    rename_file fs oldpath (nt_split oldpath).2 now = (false, fs) := by
  by_cases hv : is_valid_filename (nt_split oldpath).2
  · simp only [resolveSpine, dirOr] at hres
    rcases hl : lookupKey (nt_split oldpath).2 pch with _ | nd
    · rw [hl] at hlook
      simp at hlook
    · simp [rename_file, hv, hres, hnode, hl]
  · simp [rename_file, hv]

/-- Witness for C10: renaming the seed `DOS` directory to `DOS` fails. -/
theorem C10_rename_self_fails_witness :
    rename_file (initFS 0) (str "DOS") (str "DOS") 7 = (false, initFS 0) :=
  C10_rename_self_fails (initFS 0) (str "DOS") 7 _ _ _ _ _ rfl rfl rfl

/-! ## Space accounting lemmas (for C2) -/

theorem usedSpaceL_append (l₁ l₂ : List (Str × Node)) :
    usedSpaceL (l₁ ++ l₂) = usedSpaceL l₁ + usedSpaceL l₂ := by
  induction l₁ with
  | nil => simp [usedSpaceL]
  | cons hd tl ih => simp [usedSpaceL, ih]; omega

theorem usedSpaceL_setKey (k : Str) (v old : Node) (l : List (Str × Node))
    (h : lookupKey k l = some old) :
    usedSpaceL (setKey k v l) + usedSpace old = usedSpaceL l + usedSpace v := by
  induction l with
  | nil => simp [lookupKey] at h
  | cons hd tl ih =>
    obtain ⟨k0, v0⟩ := hd
    by_cases hh : k0 = k
    · simp [lookupKey, hh] at h
      subst h
      simp [setKey, hh, usedSpaceL]
      omega
    · simp [lookupKey, hh] at h
      simp [setKey, hh, usedSpaceL]
      have := ih h
      omega

theorem usedSpaceL_setKey_new (k : Str) (v : Node) (l : List (Str × Node))
    (h : lookupKey k l = none) :
    usedSpaceL (setKey k v l) = usedSpaceL l + usedSpace v := by
  induction l with
  | nil => simp [setKey, usedSpaceL, usedSpace]
  | cons hd tl ih =>
    obtain ⟨k0, v0⟩ := hd
    by_cases hh : k0 = k
    · simp [lookupKey, hh] at h
    · simp [lookupKey, hh] at h
      simp [setKey, hh, usedSpaceL, ih h]
      omega

/-- Updating the node at a spine changes the total used space by exactly the
difference at that node. -/
theorem usedSpace_updateAtSpine (n : Node) (s : List Str) (f : Node → Node)
    (m : Node) (h : nodeAtSpine n s = some m) :
    usedSpace (updateAtSpine n s f) + usedSpace m = usedSpace n + usedSpace (f m) := by
  induction s generalizing n m with
  | nil =>
    simp [nodeAtSpine] at h
    subst h
    simp [updateAtSpine]
    omega
  | cons k ks ih =>
    match n with
    | .file nm c mo sz co => simp [nodeAtSpine] at h
    | .dir nm c mo ch =>
      match hl : lookupKey k ch with
      | some child =>
        simp only [nodeAtSpine, hl] at h
        simp only [updateAtSpine, hl, usedSpace]
        have h₁ := usedSpaceL_setKey k (updateAtSpine child ks f) child ch hl
        have h₂ := ih child m h
        omega
      | none => simp [nodeAtSpine, hl] at h

/-- When the parent path already resolves without `create_dirs`, resolving it
with `create_dirs` finds the same node and leaves the tree untouched. -/
theorem getNodeSpine_create_of_resolved (fs : FileSystem) (path : Str)
    (now : Nat) (ps : List Str) (h : resolveSpine fs path = some ps) :
    getNodeSpine fs path true now = (some ps, fs.root) := by
  simp only [resolveSpine, getNodeSpine] at h ⊢
  rcases hpa : pathAnchor fs path with ⟨a?, parts2⟩
  match a? with
  | none =>
    simp only [hpa] at h
    simp at h
  | some a =>
    simp only [hpa] at h
    match ha : nodeAtSpine fs.root a with
    | none =>
      simp only [ha] at h
      simp at h
    | some anode =>
      simp only [ha] at h
      match hw : (walkSpine anode parts2 false 0).1 with
      | none => simp [hw] at h
      | some s =>
        rw [hw] at h
        simp at h
        simp only [ha]
        rw [walkSpine_create_of_resolved anode parts2 true now 0 s hw]
        simp [updateAtSpine_id_of fs.root a anode ha, h]

/-- Eta rule for the state record. -/
theorem FileSystem_eta (fs : FileSystem) :
    (⟨fs.root, fs.current_path, fs.total_space⟩ : FileSystem) = fs := rfl

/-! ## C2: the capacity check of `write_file` -/

/-- Claim C2: for a write whose parent directory resolves and whose filename
is valid, the operation fails with the out-of-space condition exactly when
`free_space() + prior size of an existing File at the target (0 if none)` is
less than the new content length; that failure leaves the state unchanged;
and overwriting an existing file changes free space exactly by the net size
delta. -/
theorem C2_write_capacity (fs : FileSystem) (p c : Str) (now : Nat)
    (ps : List Str) (pn : Str) (pc' pm : Nat) (pch : List (Str × Node))
    (hres : resolveSpine fs (dirOr (nt_split p).1) = some ps)
    (hnode : nodeAtSpine fs.root ps = some (.dir pn pc' pm pch))
    (hv : is_valid_filename (nt_split p).2 = true) :
    ((write_file fs p c now).1 = .noSpace ↔
      get_free_space fs +
        (match lookupKey (nt_split p).2 pch with
         | some (.file _ _ _ sz _) => (sz : Int)
         | _ => 0) < (c.length : Int)) ∧
    ((write_file fs p c now).1 = .noSpace → (write_file fs p c now).2 = fs) ∧
    (∀ fn fc fm fsz fco,
      lookupKey (nt_split p).2 pch = some (.file fn fc fm fsz fco) →
      (write_file fs p c now).1 = .ok →
      get_free_space (write_file fs p c now).2 =
        get_free_space fs + (fsz : Int) - (c.length : Int)) := by
  simp only [resolveSpine, dirOr] at hres
  have hcr := getNodeSpine_create_of_resolved fs
    (if (nt_split p).1 = [] then dotS else (nt_split p).1) now ps hres
  have hwf : write_file fs p c now =
      (let fileSize := c.length
       let existingSize : Nat :=
         match lookupKey (nt_split p).2 pch with
         | some (.file _ _ _ sz _) => sz
         | _ => 0
       if get_free_space fs + (existingSize : Int) < (fileSize : Int) then
         (.noSpace, fs)
       else
         let newChildren :=
           match lookupKey (nt_split p).2 pch with
           | some (.file fn fc _ _ _) =>
             setKey (nt_split p).2 (.file fn fc now fileSize c) pch
           | _ =>
             setKey (nt_split p).2 (.file (nt_split p).2 now now fileSize c) pch
         (.ok, { fs with
                 root := updateAtSpine fs.root ps
                   (fun _ => .dir pn pc' now newChildren) })) := by
    simp only [write_file, hv, Bool.not_true, Bool.false_eq_true, if_false,
      hcr, FileSystem_eta, hnode]
  rw [hwf]
  rcases hlk : lookupKey (nt_split p).2 pch with _ | nd
  · simp only [hlk]
    by_cases hsp : get_free_space fs < (c.length : Int)
    · simp [hsp]
    · simp [hsp]
  · match nd with
    | .dir dn dc dm dch =>
      simp only [hlk]
      by_cases hsp : get_free_space fs < (c.length : Int)
      · simp [hsp]
      · simp [hsp]
    | .file fn fc fm fsz fco =>
      simp only [hlk]
      by_cases hsp : get_free_space fs + (fsz : Int) < (c.length : Int)
      · simp [hsp]
      · simp only [hsp, if_false, Nat.cast_inj]
        refine ⟨by simp [hsp], by simp, ?_⟩
        intro fn' fc' fm' fsz' fco' hlk' _
        simp only [Option.some.injEq, Node.file.injEq] at hlk'
        obtain ⟨-, -, -, h4, -⟩ := hlk'
        subst h4
        have h₁ := usedSpace_updateAtSpine fs.root ps
          (fun _ => Node.dir pn pc' now
            (setKey (nt_split p).2 (.file fn fc now c.length c) pch))
          (.dir pn pc' pm pch) hnode
        have h₂ := usedSpaceL_setKey (nt_split p).2
          (.file fn fc now c.length c) (.file fn fc fm fsz fco) pch hlk
        simp only [usedSpace] at h₁ h₂
        simp only [get_free_space]
        omega

/-- Witness for C2 at a near-capacity state: a 100-byte file `F` under a
120-byte capacity.  Overwriting `F` with 121 bytes fails with the out-of-space
condition and leaves the state unchanged (the 100 bytes are credited back,
120 < 121); overwriting it with 30 bytes changes free space by the net delta
(20 + 100 - 30 = 90). -/
theorem C2_write_capacity_witness :
    (write_file tinyFS (str "F") (List.replicate 121 'y') 5).1 = .noSpace ∧
    (write_file tinyFS (str "F") (List.replicate 121 'y') 5).2 = tinyFS ∧
    get_free_space (write_file tinyFS (str "F") (List.replicate 30 'y') 5).2 = 90 := by
  have h1 := C2_write_capacity tinyFS (str "F") (List.replicate 121 'y') 5
    [] drv 0 0 _ rfl rfl rfl
  have h2 := C2_write_capacity tinyFS (str "F") (List.replicate 30 'y') 5
    [] drv 0 0 _ rfl rfl rfl
  refine ⟨h1.1.mpr (by decide), h1.2.1 (h1.1.mpr (by decide)), ?_⟩
  rw [h2.2.2 (str "F") 0 0 100 (List.replicate 100 'x') rfl (by decide)]
  decide

/-! ## C8: error propagation across the public boundary -/

/-- Counterexample for C8: `write_file` with an invalid filename does not
return a negative result — it raises `ValueError` (modelled by the
`WStatus.invalidName` outcome, which is distinct from every ordinary return of
the operation), so the claim that no failure unwinds across the public
boundary as an exception is false for `write`. -/
theorem C8_counterexample :
    (write_file (initFS 0) (str "bad<name") (str "x") 5).1 = WStatus.invalidName ∧
    WStatus.invalidName ≠ WStatus.ok := by decide

/-- Claim C8 (amended): `change_directory`, `create_directory`,
`remove_directory`, `read`, `delete`, `rename` and `list` report their
failures as ordinary negative results, but `write_file` reports an invalid
filename (exactly when `is_valid_filename` rejects the final component), an
unresolvable parent, and insufficient space by raising `ValueError`/`IOError`;
`copy_file` catches those exceptions and reports an ordinary `false`. -/
theorem C8_amended_propagation (fs : FileSystem) (p c src dst : Str) (now : Nat) :
    ((write_file fs p c now).1 = .invalidName ↔
      is_valid_filename (nt_split p).2 = false) ∧
    (is_valid_filename (nt_split p).2 = false → (write_file fs p c now).2 = fs) ∧
    (read_file fs src = none → copy_file fs src dst now = (false, fs)) ∧
    (∀ content, read_file fs src = some content →
      ((copy_file fs src dst now).1 = true ↔
        (write_file fs dst content now).1 = .ok) ∧
      (copy_file fs src dst now).2 = (write_file fs dst content now).2) := by
  refine ⟨?_, ?_, ?_, ?_⟩
  · by_cases hv : is_valid_filename (nt_split p).2
    · simp only [write_file, hv, Bool.not_true, Bool.false_eq_true, if_false]
      constructor
      · intro h
        rcases hres : (getNodeSpine fs (if (nt_split p).1 = [] then dotS
            else (nt_split p).1) true now).1 with _ | ps
        · simp only [hres] at h
          simp at h
        · simp only [hres] at h
          rcases hnode : nodeAtSpine (getNodeSpine fs (if (nt_split p).1 = []
              then dotS else (nt_split p).1) true now).2 ps with _ | nd
          · simp only [hnode] at h
            simp at h
          · match nd, hnode with
            | .file fn fc fm fsz fco, hnode =>
              simp only [hnode] at h
              simp at h
            | .dir pn pc pm pch, hnode =>
              simp only [hnode] at h
              split at h <;> split at h <;> simp at h
      · intro h
        simp [hv] at h
    · simp only [Bool.not_eq_true] at hv
      simp [write_file, hv]
  · intro hv
    simp [write_file, hv]
  · intro hr
    simp [copy_file, hr]
  · intro content hr
    simp only [copy_file, hr]
    by_cases hok : (write_file fs dst content now).1 = WStatus.ok
    · simp [hok]
    · simp [hok]

/-! ## C6: shape of directory listings -/

/-- Counterexample for C6: listing the root through the path `"."` does
contain a synthesized `".."` entry (the `".."` pseudo-entry is omitted only
for the literal path strings `"C:"` and `"C:\"`, not whenever the target is
the root). -/
theorem C6_counterexample :
    resolveSpine (initFS 0) dotS = some [] ∧
    (list_directory (initFS 0) dotS).map Entry.name = [dotS, ddotS, str "DOS"] := by
  decide

/-- Claim C6 (amended): for every path that resolves to a Directory, `list`
produces a `"."` entry with zero size and the directory's own timestamps,
then a `".."` entry if and only if the path argument is not literally `"C:"`
or `"C:\"` (with the timestamps of the node resolved from `".."` when the
path is `"."`, else from the path's dirname, falling back to the directory's
own timestamps), then one entry per child in insertion order with the child's
name, type, size and timestamps. -/
theorem C6_amended_list_structure (fs : FileSystem) (path : Str)
    (s : List Str) (dn : Str) (dc dm : Nat) (ch : List (Str × Node))
    (hres : resolveSpine fs path = some s)
    (hnode : nodeAtSpine fs.root s = some (.dir dn dc dm ch)) :
    list_directory fs path =
      ⟨dotS, .dir, 0, dc, dm⟩ ::
      ((if path ≠ drv ∧ path ≠ drvS then
          [⟨ddotS, .dir, 0,
            (match resolveNode fs (if path = dotS then ddotS
                else (nt_split path).1) with
             | some pn => nodeCreated pn
             | none => dc),
            (match resolveNode fs (if path = dotS then ddotS
                else (nt_split path).1) with
             | some pn => nodeModified pn
             | none => dm)⟩]
        else []) ++
        ch.map (fun kv =>
          ⟨kv.1, nodeEType kv.2, entrySize kv.2, nodeCreated kv.2,
           nodeModified kv.2⟩)) := by
  have hrn : resolveNode fs path = some (.dir dn dc dm ch) := by
    rw [resolveNode_eq, hres]
    simpa using hnode
  simp only [list_directory, hrn]
  by_cases hp : path ≠ drv ∧ path ≠ drvS
  · rcases hpn : resolveNode fs (if path = dotS then ddotS
        else (nt_split path).1) with _ | pn
    · simp [hp, hpn]
    · simp [hp, hpn]
  · simp [hp]

/-- Witness for C8 (amended): copying from a missing source reports an
ordinary `false`; copying onto an invalid destination name also reports
`false` because the `ValueError` from `write_file` is caught. -/
theorem C8_amended_propagation_witness :
    copy_file (initFS 0) (str "NOPE.TXT") (str "X.TXT") 5 = (false, initFS 0) ∧
    (copy_file (initFS 0) (str "DOS\\README.TXT") (str "bad<x") 5).1 = false := by
  constructor
  · exact (C8_amended_propagation (initFS 0) (str "p") (str "c")
      (str "NOPE.TXT") (str "X.TXT") 5).2.2.1 (by decide)
  · have h := ((C8_amended_propagation (initFS 0) (str "p") (str "c")
      (str "DOS\\README.TXT") (str "bad<x") 5).2.2.2 readmeText (by decide)).1
    cases hb : (copy_file (initFS 0) (str "DOS\\README.TXT") (str "bad<x") 5).1 with
    | false => rfl
    | true =>
      have hw := h.mp hb
      have : (write_file (initFS 0) (str "bad<x") readmeText 5).1 =
          WStatus.invalidName := by decide
      rw [this] at hw
      exact absurd hw (by decide)

/-- Witness for C6 (amended): listing the seed `DOS` directory. -/
theorem C6_amended_list_structure_witness :
    list_directory (initFS 0) (str "DOS") =
      [⟨dotS, .dir, 0, 0, 0⟩, ⟨ddotS, .dir, 0, 0, 0⟩,
       ⟨str "README.TXT", .file, 177, 0, 0⟩] := by
  rw [C6_amended_list_structure (initFS 0) (str "DOS") [str "DOS"]
    (str "DOS") 0 0 _ rfl rfl]
  decide

/-! ## C3: resolution never creates the final parsed segment -/

theorem lookupKey_nil (k : Str) : lookupKey k ([] : List (Str × Node)) = none := rfl

/-- One-step equation: an empty segment is skipped. -/
theorem walkSpine_seg_nil (cur : Node) (rest : List Str) (create : Bool)
    (now : Nat) :
    walkSpine cur (([] : Str) :: rest) create now =
      walkSpine cur rest create now := by
  simp [walkSpine]

/-- One-step equation: a nonempty segment at a file node fails. -/
theorem walkSpine_file_step {n : Str} {c m sz : Nat} {co : Str} {part : Str}
    {rest : List Str} {create : Bool} {now : Nat} (hp : part ≠ []) :
    walkSpine (.file n c m sz co) (part :: rest) create now =
      (none, .file n c m sz co) := by
  simp [walkSpine, hp]

/-- One-step equation: a found child is entered. -/
theorem walkSpine_dir_found {n : Str} {c m : Nat} {ch : List (Str × Node)}
    {part : Str} {rest : List Str} {create : Bool} {now : Nat} {child : Node}
    (hp : part ≠ []) (hl : lookupKey part ch = some child) :
    walkSpine (.dir n c m ch) (part :: rest) create now =
      ((walkSpine child rest create now).1.map (part :: ·),
       .dir n c m (setKey part (walkSpine child rest create now).2 ch)) := by
  simp only [walkSpine, if_neg hp, hl]

/-- One-step equation: a missing child either fails or (with
`create_intermediate`, at a non-final index) synthesizes an empty directory. -/
theorem walkSpine_dir_miss {n : Str} {c m : Nat} {ch : List (Str × Node)}
    {part : Str} {rest : List Str} {create : Bool} {now : Nat}
    (hp : part ≠ []) (hl : lookupKey part ch = none) :
    walkSpine (.dir n c m ch) (part :: rest) create now =
      (if create && !rest.isEmpty then
        ((walkSpine (Node.dir part now now []) rest create now).1.map (part :: ·),
         .dir n c m (ch ++ [(part, (walkSpine (Node.dir part now now []) rest create now).2)]))
      else (none, .dir n c m ch)) := by
  simp only [walkSpine, if_neg hp, hl]

theorem fNE_ne_nil_of_getLast (parts : List Str) (s : Str)
    (hlast : parts.getLast? = some s) (hs : s ≠ []) : fNE parts ≠ [] := by
  have hmem : s ∈ parts := by
    obtain ⟨hne, heq⟩ := List.mem_getLast?_eq_getLast (l := parts) (x := s)
      (by simp [hlast])
    exact heq ▸ List.getLast_mem hne
  have : s ∈ fNE parts := by
    simp only [fNE, List.mem_filter]
    exact ⟨hmem, by simpa using hs⟩
  intro hnil
  rw [hnil] at this
  simp at this

/-- Below an empty directory, a walk whose final segment is nonempty always
fails, whether or not it may create intermediate directories. -/
theorem walkSpine_empty_dir_final (parts : List Str) (s : Str)
    (hlast : parts.getLast? = some s) (hs : s ≠ []) (nm : Str) (c m now : Nat)
    (create : Bool) :
    (walkSpine (.dir nm c m []) parts create now).1 = none := by
  induction parts generalizing nm c m with
  | nil => simp at hlast
  | cons part rest ih =>
    match rest with
    | [] =>
      simp only [List.getLast?_singleton, Option.some.injEq] at hlast
      subst hlast
      rw [walkSpine_dir_miss hs (lookupKey_nil part)]
      simp
    | r0 :: rest' =>
      have hlast' : (r0 :: rest').getLast? = some s := by
        simpa [List.getLast?_cons_cons] using hlast
      by_cases hp : part = ([] : Str)
      · subst hp
        rw [walkSpine_seg_nil]
        exact ih hlast' nm c m
      · rw [walkSpine_dir_miss hp (lookupKey_nil part)]
        by_cases hcr : (create && !(r0 :: rest').isEmpty) = true
        · rw [if_pos hcr]
          simp [ih hlast' part now now]
        · rw [if_neg hcr]

/-- Claim C3 (amended): in the traversal walk of `_get_node_at_path`, when the
final parsed segment is nonempty, (i) allowing `create_intermediate` never
changes the resolution result, (ii) resolution without creation succeeds
exactly when the chain of nonempty segments already exists below the anchor
(so a missing final segment, or a non-directory node at a nonempty step, makes
resolution fail), and (iii) the walk never inserts a node at the spine of the
final segment: if the chain is absent before, it is still absent afterwards.
(Empty segments — produced by trailing or doubled separators — are skipped,
which is the correction to the original claim.) -/
theorem C3_resolution_never_creates_final (cur : Node) (parts : List Str)
    (create : Bool) (now n0 : Nat) (s : Str)
    (hlast : parts.getLast? = some s) (hs : s ≠ []) :
    ((walkSpine cur parts create now).1 = (walkSpine cur parts false n0).1) ∧
    ((walkSpine cur parts false n0).1 =
      (nodeAtSpine cur (fNE parts)).map (fun _ => fNE parts)) ∧
    (nodeAtSpine cur (fNE parts) = none →
      nodeAtSpine (walkSpine cur parts create now).2 (fNE parts) = none) := by
  refine ⟨?_, walkSpine_false_fst_char cur parts n0, ?_⟩
  · induction parts generalizing cur with
    | nil => simp at hlast
    | cons part rest ih =>
      match rest with
      | [] =>
        simp only [List.getLast?_singleton, Option.some.injEq] at hlast
        subst hlast
        match cur with
        | .file n c m sz co => simp [walkSpine_file_step hs]
        | .dir n c m ch =>
          match hl : lookupKey part ch with
          | some child =>
            rw [walkSpine_dir_found hs hl,
              walkSpine_dir_found hs hl]
            try simp [walkSpine]
          | none =>
            rw [walkSpine_dir_miss hs hl,
              walkSpine_dir_miss hs hl]
            try simp
      | r0 :: rest' =>
        have hlast' : (r0 :: rest').getLast? = some s := by
          simpa [List.getLast?_cons_cons] using hlast
        by_cases hp : part = ([] : Str)
        · subst hp
          rw [walkSpine_seg_nil, walkSpine_seg_nil]
          exact ih cur hlast'
        · match cur with
          | .file n c m sz co => simp [walkSpine_file_step hp]
          | .dir n c m ch =>
            match hl : lookupKey part ch with
            | some child =>
              rw [walkSpine_dir_found hp hl,
                walkSpine_dir_found hp hl]
              simp [ih child hlast']
            | none =>
              rw [walkSpine_dir_miss hp hl,
                walkSpine_dir_miss hp hl]
              by_cases hcr : create = true
              · subst hcr
                simp [walkSpine_empty_dir_final (r0 :: rest') s hlast' hs
                  part now now now true]
              · simp only [Bool.not_eq_true] at hcr
                subst hcr
                simp
  · induction parts generalizing cur with
    | nil => simp at hlast
    | cons part rest ih =>
      intro habs
      match rest with
      | [] =>
        simp only [List.getLast?_singleton, Option.some.injEq] at hlast
        subst hlast
        have hfne : fNE [part] = [part] := by simp [fNE, hs]
        rw [hfne] at habs ⊢
        match cur with
        | .file n c m sz co =>
          rw [walkSpine_file_step hs]
          simp [nodeAtSpine]
        | .dir n c m ch =>
          match hl : lookupKey part ch with
          | some child =>
            simp [nodeAtSpine, hl] at habs
          | none =>
            rw [walkSpine_dir_miss hs hl]
            simp [nodeAtSpine, hl]
      | r0 :: rest' =>
        have hlast' : (r0 :: rest').getLast? = some s := by
          simpa [List.getLast?_cons_cons] using hlast
        by_cases hp : part = ([] : Str)
        · subst hp
          have hfne : fNE (([] : Str) :: r0 :: rest') = fNE (r0 :: rest') := by
            simp [fNE]
          rw [hfne] at habs ⊢
          rw [walkSpine_seg_nil]
          exact ih cur hlast' habs
        · have hfne : fNE (part :: r0 :: rest') = part :: fNE (r0 :: rest') := by
            simp [fNE, hp]
          rw [hfne] at habs ⊢
          match cur with
          | .file n c m sz co =>
            rw [walkSpine_file_step hp]
            simp [nodeAtSpine]
          | .dir n c m ch =>
            match hl : lookupKey part ch with
            | some child =>
              simp only [nodeAtSpine, hl] at habs
              rw [walkSpine_dir_found hp hl]
              simp only [nodeAtSpine, lookupKey_setKey_self]
              exact ih child hlast' habs
            | none =>
              rw [walkSpine_dir_miss hp hl]
              by_cases hcr : create = true
              · subst hcr
                simp only [List.isEmpty_cons, Bool.not_false, Bool.and_self,
                  if_true, nodeAtSpine, lookupKey_append, hl]
                have hemp : nodeAtSpine (Node.dir part now now [])
                    (fNE (r0 :: rest')) = none := by
                  rcases hq : fNE (r0 :: rest') with _ | ⟨q0, qrest⟩
                  · exact absurd hq (fNE_ne_nil_of_getLast _ s hlast' hs)
                  · simp [nodeAtSpine, lookupKey]
                have := ih (Node.dir part now now []) hlast' hemp
                simpa [lookupKey] using this
              · simp only [Bool.not_eq_true] at hcr
                subst hcr
                simp [nodeAtSpine, hl]

/-! ## C7: `cd sub` / `cd ..` round trip -/

theorem normalize_of_no_slash (s : Str) (h : ('/' : Char) ∉ s) :
    normalize s = s := by
  induction s with
  | nil => rfl
  | cons c cs ih =>
    simp only [List.mem_cons, not_or] at h
    have hc : ¬c = '/' := fun hc => h.1 hc.symm
    have hcs := ih h.2
    simp only [normalize, List.map_cons, if_neg hc] at hcs ⊢
    rw [hcs]

theorem splitChar_of_not_mem (c : Char) (s : Str) (h : c ∉ s) :
    splitChar c s = [s] := by
  induction s with
  | nil => rfl
  | cons x xs ih =>
    simp only [List.mem_cons, not_or] at h
    have hx : ¬x = c := fun hx => h.1 hx.symm
    simp [splitChar, hx, ih h.2]

/-- Character-level consequences of `is_valid_filename`. -/
theorem valid_filename_facts (s : Str) (hv : is_valid_filename s = true) :
    s ≠ [] ∧ s ≠ dotS ∧ s ≠ ddotS ∧
    ('\\' : Char) ∉ s ∧ ('/' : Char) ∉ s ∧ (':' : Char) ∉ s := by
  simp only [is_valid_filename] at hv
  by_cases h1 : s = [] ∨ s = dotS ∨ s = ddotS
  · simp [h1] at hv
    rcases h1 with h | h | h <;> simp [h] at hv
  · push_neg at h1
    obtain ⟨hn, hd, hdd⟩ := h1
    refine ⟨hn, hd, hdd, ?_, ?_, ?_⟩ <;>
    · intro hmem
      have hany : s.any invalidChar = true :=
        List.any_eq_true.mpr ⟨_, hmem, by simp [invalidChar]⟩
      simp [hn, hd, hdd, hany] at hv

/-- A valid filename parses as a single relative segment. -/
theorem parse_path_single (s : Str) (hv : is_valid_filename s = true) :
    parse_path s = [s] := by
  obtain ⟨hn, _, _, hbs, hsl, hco⟩ := valid_filename_facts s hv
  simp only [parse_path, hn, if_false]
  rw [normalize_of_no_slash s hsl, splitChar_of_not_mem _ _ hbs]
  simp [hco]

/-- The anchor stage for a plain single-segment relative path. -/
theorem pathAnchor_single (fs : FileSystem) (s : Str)
    (hv : is_valid_filename s = true) :
    pathAnchor fs s = (currentSpine fs.root fs.current_path, [s]) := by
  obtain ⟨hn, hd, hdd, _, _, hco⟩ := valid_filename_facts s hv
  have hdrv : s ≠ drv := by
    intro h
    exact hco (h ▸ (by simp [drv]))
  have hdrvS : s ≠ drvS := by
    intro h
    exact hco (h ▸ (by simp [drvS]))
  simp only [pathAnchor]
  rw [if_neg (show ¬(s = [] ∨ s = drv ∨ s = drvS) by simp [hn, hdrv, hdrvS]),
    parse_path_single s hv]
  simp [hdd, hd, hdrv]

/-- Claim C7 (amended): for any current-directory sequence that denotes a
directory and any name `sub` of a subdirectory of that directory, provided
`sub` is a valid filename (names such as `..` or `C:`, which only arise from
unvalidated intermediate creation, are excluded) and the sequence is
nonempty, `change_directory(sub)` succeeds and a following
`change_directory("..")` restores the exact prior state. -/
theorem C7_amended_cd_roundtrip (fs : FileSystem) (sub : Str)
    (hv : is_valid_filename sub = true)
    (hcp : fs.current_path ≠ [])
    (a : List Str) (hcur : currentSpine fs.root fs.current_path = some a)
    (dn : Str) (dc dm : Nat) (dch : List (Str × Node))
    (ha : nodeAtSpine fs.root a = some (.dir dn dc dm dch))
    (sn : Str) (sc sm : Nat) (sch : List (Str × Node))
    (hsub : lookupKey sub dch = some (.dir sn sc sm sch)) :
    (change_directory fs sub).1 = true ∧
    (change_directory (change_directory fs sub).2 ddotS).2 = fs := by
  obtain ⟨hn, hd, hdd, _, _, hco⟩ := valid_filename_facts sub hv
  have hdrv : sub ≠ drv := fun h => hco (h ▸ (by simp [drv]))
  have htake : sub.take 2 ≠ drv := by
    intro h
    exact hco (List.take_subset 2 sub (h ▸ (by simp [drv] : (':' : Char) ∈ drv)))
  -- resolution of `sub`
  have hg1 : getNodeSpine fs sub false 0 = (some (a ++ [sub]), fs.root) := by
    simp only [getNodeSpine, pathAnchor_single fs sub hv, hcur, ha]
    rw [walkSpine_dir_found hn hsub]
    simp [walkSpine, setKey_of_lookup_eq _ _ _ hsub,
      updateAtSpine_id_of fs.root a _ ha]
  have hr1 : resolveNode fs sub = some (.dir sn sc sm sch) := by
    simp only [resolveNode, hg1, Option.bind_some, Option.some_bind,
      nodeAtSpine_append, ha]
    simp [nodeAtSpine, hsub]
  -- the first call appends `sub`
  have hcd1 : change_directory fs sub =
      (true, { fs with current_path := fs.current_path ++ [sub] }) := by
    simp only [change_directory, hr1, hdd, hd, htake, if_false]
    simp [cdRel, parse_path_single sub hv, hdd, hd, hn]
  -- resolution of `".."` from the extended sequence
  have hlen : 1 < (fs.current_path ++ [sub]).length := by
    rcases hc2 : fs.current_path with _ | ⟨x, xs⟩
    · exact absurd hc2 hcp
    · simp
  have hg2 : getNodeSpine { fs with current_path := fs.current_path ++ [sub] }
      ddotS false 0 = (some a, fs.root) := by
    have hpa : pathAnchor { fs with current_path := fs.current_path ++ [sub] }
        ddotS = (some a, []) := by
      simp only [pathAnchor]
      rw [if_neg (by decide : ¬(ddotS = [] ∨ ddotS = drv ∨ ddotS = drvS))]
      have hpp : parse_path ddotS = [ddotS] := by decide
      rw [hpp]
      simp only [if_neg (by decide : ¬ddotS = drv), if_pos rfl, hlen, if_pos rfl]
      simp [List.dropLast_concat, hcur]
    simp only [getNodeSpine, hpa, ha]
    simp [walkSpine, updateAtSpine_id_of fs.root a _ ha]
  have hr2 : resolveNode { fs with current_path := fs.current_path ++ [sub] }
      ddotS = some (.dir dn dc dm dch) := by
    simp only [resolveNode, hg2, Option.some_bind]
    exact ha
  refine ⟨by simp [hcd1], ?_⟩
  rw [hcd1]
  simp only [change_directory, hr2, if_pos rfl, hlen, if_pos rfl]
  simp [List.dropLast_concat]

/-- Counterexample for C7: with a subdirectory literally named `C:` inside the
current directory `C:\a`, `change_directory("C:")` resolves (to that
subdirectory) but the textual update jumps to the drive root, and the
following `change_directory("..")` does not restore `["C:", "a"]`. -/
theorem C7_counterexample :
    colonFS.current_path = [drv, str "a"] ∧
    currentSpine colonFS.root colonFS.current_path = some [str "a"] ∧
    (nodeAtSpine colonFS.root [str "a", drv]).map nodeEType = some .dir ∧
    (change_directory colonFS drv).1 = true ∧
    (change_directory (change_directory colonFS drv).2 ddotS).2.current_path
      = [drv] := by
  decide

/-- Witness for C7 (amended): the ordinary `DOS` round trip from the root. -/
theorem C7_amended_cd_roundtrip_witness :
    (change_directory (initFS 0) (str "DOS")).1 = true ∧
    (change_directory (change_directory (initFS 0) (str "DOS")).2 ddotS).2
      = initFS 0 :=
  C7_amended_cd_roundtrip (initFS 0) (str "DOS") (by decide) (by decide)
    [] rfl drv 0 0 _ rfl (str "DOS") 0 0 _ rfl

/-- Counterexample for C3: for the path `"DOS\README.TXT\"` the final parsed
segment is the empty string, which is absent from every child mapping, yet
resolution does not fail — it skips the empty segment and returns the
`README.TXT` *file* (also passing a non-directory node without failing). -/
theorem C3_counterexample :
    parse_path (str "DOS\\README.TXT\\") =
      [str "DOS", str "README.TXT", str ""] ∧
    resolveSpine (initFS 0) (str "DOS\\README.TXT\\") =
      some [str "DOS", str "README.TXT"] ∧
    read_file (initFS 0) (str "DOS\\README.TXT\\") = some readmeText := by
  decide

/-- Witness for C3 (amended) at a concrete walk: segments `DOS\NOPE` over the
seed tree with `create_intermediate` on. -/
theorem C3_resolution_never_creates_final_witness :
    ((walkSpine (initRoot 0) [str "DOS", str "NOPE"] true 5).1 =
      (walkSpine (initRoot 0) [str "DOS", str "NOPE"] false 0).1) ∧
    ((walkSpine (initRoot 0) [str "DOS", str "NOPE"] false 0).1 =
      (nodeAtSpine (initRoot 0) (fNE [str "DOS", str "NOPE"])).map
        (fun _ => fNE [str "DOS", str "NOPE"])) ∧
    (nodeAtSpine (initRoot 0) (fNE [str "DOS", str "NOPE"]) = none →
      nodeAtSpine (walkSpine (initRoot 0) [str "DOS", str "NOPE"] true 5).2
        (fNE [str "DOS", str "NOPE"]) = none) :=
  C3_resolution_never_creates_final (initRoot 0) [str "DOS", str "NOPE"]
    true 5 0 (str "NOPE") (by decide) (by decide)

/-! ## String-level lemmas about splitting, joining and parsing -/

theorem splitChar_ne_nil (c : Char) (s : Str) : splitChar c s ≠ [] := by
  induction s with
  | nil => simp [splitChar]
  | cons x xs ih =>
    by_cases hx : x = c
    · simp [splitChar, hx]
    · simp only [splitChar, if_neg hx]
      rcases hsp : splitChar c xs with _ | ⟨s0, ss⟩
      · exact absurd hsp ih
      · simp

theorem splitChar_not_mem (c : Char) (s : Str) (q : Str)
    (hq : q ∈ splitChar c s) : c ∉ q := by
  induction s generalizing q with
  | nil =>
    simp [splitChar] at hq
    simp [hq]
  | cons x xs ih =>
    by_cases hx : x = c
    · simp only [splitChar, if_pos hx, List.mem_cons] at hq
      rcases hq with hq | hq
      · simp [hq]
      · exact ih q hq
    · simp only [splitChar, if_neg hx] at hq
      rcases hsp : splitChar c xs with _ | ⟨s0, ss⟩
      · exact absurd hsp (splitChar_ne_nil c xs)
      · rw [hsp] at hq
        simp only [List.mem_cons] at hq
        rcases hq with hq | hq
        · subst hq
          intro hc
          simp only [List.mem_cons] at hc
          rcases hc with hc | hc
          · exact hx hc.symm
          · exact ih s0 (by simp [hsp]) hc
        · exact ih q (by simp [hsp, hq])

theorem splitChar_subset (c : Char) (s : Str) (q : Str)
    (hq : q ∈ splitChar c s) (x : Char) (hx : x ∈ q) : x ∈ s := by
  induction s generalizing q with
  | nil =>
    simp [splitChar] at hq
    subst hq
    simp at hx
  | cons y ys ih =>
    by_cases hy : y = c
    · simp only [splitChar, if_pos hy, List.mem_cons] at hq
      rcases hq with hq | hq
      · subst hq
        simp at hx
      · exact List.mem_cons_of_mem _ (ih q hq hx)
    · simp only [splitChar, if_neg hy] at hq
      rcases hsp : splitChar c ys with _ | ⟨s0, ss⟩
      · exact absurd hsp (splitChar_ne_nil c ys)
      · rw [hsp] at hq
        simp only [List.mem_cons] at hq
        rcases hq with hq | hq
        · subst hq
          simp only [List.mem_cons] at hx
          rcases hx with hx | hx
          · simp [hx]
          · exact List.mem_cons_of_mem _ (ih s0 (by simp [hsp]) hx)
        · exact List.mem_cons_of_mem _ (ih q (by simp [hsp, hq]) hx)

theorem splitChar_append_sep (c : Char) (xs ys : Str) :
    splitChar c (xs ++ c :: ys) = splitChar c xs ++ splitChar c ys := by
  induction xs with
  | nil => simp [splitChar]
  | cons x xs ih =>
    by_cases hx : x = c
    · simp [splitChar, hx, ih]
    · simp only [List.cons_append, splitChar, if_neg hx, List.append_eq]
      rw [ih]
      rcases hsp : splitChar c xs with _ | ⟨s0, ss⟩
      · exact absurd hsp (splitChar_ne_nil c xs)
      · simp

theorem normalize_append (xs ys : Str) :
    normalize (xs ++ ys) = normalize xs ++ normalize ys := by
  simp [normalize]

theorem normalize_no_slash (p : Str) : ('/' : Char) ∉ normalize p := by
  intro h
  simp only [normalize, List.mem_map] at h
  obtain ⟨c, _, hc⟩ := h
  by_cases h1 : c = '/' <;> simp [h1] at hc

/-- Parsing distributes over a separator: the segments of `p` followed by the
raw segments of `v`. -/
theorem parse_path_append_sep (p : Str) (hp : p ≠ []) (c : Char)
    (hc : isSep c = true) (v : Str) :
    parse_path (p ++ c :: v) =
      parse_path p ++ splitChar '\\' (normalize v) := by
  have hnc : normalize [c] = ['\\'] := by
    simp only [isSep, Bool.or_eq_true, decide_eq_true_eq] at hc
    rcases hc with hc | hc <;> simp [normalize, hc]
  have hsplit : splitChar '\\' (normalize (p ++ c :: v)) =
      splitChar '\\' (normalize p) ++ splitChar '\\' (normalize v) := by
    have : normalize (p ++ c :: v) =
        normalize p ++ '\\' :: normalize v := by
      rw [show (c :: v : Str) = [c] ++ v from rfl, normalize_append,
        normalize_append, hnc]
      simp
    rw [this, splitChar_append_sep]
  simp only [parse_path, if_neg hp,
    if_neg (show ¬(p ++ c :: v) = [] by simp)]
  rw [hsplit]
  rcases hsp : splitChar '\\' (normalize p) with _ | ⟨s0, ss⟩
  · exact absurd hsp (splitChar_ne_nil _ _)
  · simp only [hsp, List.cons_append]
    by_cases hcol : (':' : Char) ∈ s0 <;> simp [hcol]

theorem joinBS_append (l₁ l₂ : List Str) (h₁ : l₁ ≠ []) (h₂ : l₂ ≠ []) :
    joinBS (l₁ ++ l₂) = joinBS l₁ ++ '\\' :: joinBS l₂ := by
  induction l₁ with
  | nil => exact absurd rfl h₁
  | cons x xs ih =>
    rcases xs with _ | ⟨y, ys⟩
    · rcases l₂ with _ | ⟨z, zs⟩
      · exact absurd rfl h₂
      · simp [joinBS]
    · have hih := ih (by simp)
      have hcons : joinBS (x :: y :: ys) = x ++ '\\' :: joinBS (y :: ys) := rfl
      have hcons2 : joinBS (x :: (y :: ys ++ l₂)) =
          x ++ '\\' :: joinBS (y :: ys ++ l₂) := rfl
      calc joinBS ((x :: y :: ys) ++ l₂)
          = joinBS (x :: (y :: ys ++ l₂)) := by simp
        _ = x ++ '\\' :: joinBS (y :: ys ++ l₂) := hcons2
        _ = x ++ '\\' :: (joinBS (y :: ys) ++ '\\' :: joinBS l₂) := by
              rw [hih]
        _ = joinBS (x :: y :: ys) ++ '\\' :: joinBS l₂ := by
              rw [hcons]
              simp

theorem mem_joinBS (l : List Str) (x : Char) (hx : x ∈ joinBS l) :
    x = '\\' ∨ ∃ q ∈ l, x ∈ q := by
  induction l with
  | nil => simp [joinBS] at hx
  | cons s ss ih =>
    rcases ss with _ | ⟨t, ts⟩
    · simp only [joinBS] at hx
      exact Or.inr ⟨s, by simp, hx⟩
    · simp only [joinBS, List.mem_append, List.mem_cons] at hx
      rcases hx with hx | hx | hx
      · exact Or.inr ⟨s, by simp, hx⟩
      · exact Or.inl hx
      · rcases ih hx with h | ⟨q, hq, hxq⟩
        · exact Or.inl h
        · exact Or.inr ⟨q, by simp [hq], hxq⟩

theorem splitChar_joinBS (l : List Str) (hl : l ≠ [])
    (h : ∀ q ∈ l, ('\\' : Char) ∉ q) :
    splitChar '\\' (joinBS l) = l := by
  induction l with
  | nil => exact absurd rfl hl
  | cons s ss ih =>
    rcases ss with _ | ⟨t, ts⟩
    · simp [joinBS, splitChar_of_not_mem _ _ (h s (by simp))]
    · have hj : joinBS (s :: t :: ts) = s ++ '\\' :: joinBS (t :: ts) := by
        simp [joinBS]
      rw [hj, splitChar_append_sep,
        splitChar_of_not_mem _ _ (h s (by simp)),
        ih (by simp) (fun q hq => h q (by simp [hq]))]
      simp

theorem parse_path_ne_nil (p : Str) (hp : p ≠ []) : parse_path p ≠ [] := by
  simp only [parse_path, if_neg hp]
  rcases hsp : splitChar '\\' (normalize p) with _ | ⟨s0, ss⟩
  · exact absurd hsp (splitChar_ne_nil _ _)
  · by_cases hcol : (':' : Char) ∈ s0 <;> simp [hcol]

/-- Every segment after the first in a parsed path is free of separators. -/
theorem parse_path_tail_props (p : Str) (q : Str)
    (hq : q ∈ (parse_path p).tail) :
    ('\\' : Char) ∉ q ∧ ('/' : Char) ∉ q := by
  by_cases hp : p = []
  · simp [parse_path, hp] at hq
  · simp only [parse_path, if_neg hp] at hq
    rcases hsp : splitChar '\\' (normalize p) with _ | ⟨s0, ss⟩
    · exact absurd hsp (splitChar_ne_nil _ _)
    · rw [hsp] at hq
      have hq' : q ∈ ss := by
        by_cases hcol : (':' : Char) ∈ s0 <;> simpa [hcol] using hq
      have hmem : q ∈ splitChar '\\' (normalize p) := by
        simp [hsp, hq']
      constructor
      · exact splitChar_not_mem _ _ q hmem
      · intro hsl
        exact normalize_no_slash p (splitChar_subset _ _ q hmem _ hsl)

/-- A current path headed by the literal drive segment parses back to a
drive-anchored segment list, and its spine is the chain of nonempty parsed
tail segments. -/
theorem currentSpine_char (root : Node) (cs : List Str) :
    currentSpine root (drv :: cs) =
      (nodeAtSpine root (fNE (parse_path (joinBS (drv :: cs))).tail)).map
        (fun _ => fNE ((parse_path (joinBS (drv :: cs))).tail)) := by
  rcases cs with _ | ⟨c0, cs'⟩
  · have hj : joinBS [drv] = drv := rfl
    have hp : parse_path drv = [drv] := by decide
    simp only [currentSpine, hj, hp]
    simp [fNE, nodeAtSpine]
  · have hcs : (c0 :: cs' : List Str) ≠ [] := by simp
    have hj : joinBS (drv :: c0 :: cs') =
        drv ++ '\\' :: joinBS (c0 :: cs') := by
      have := joinBS_append [drv] (c0 :: cs') (by simp) hcs
      simpa using this
    have hparse : parse_path (joinBS (drv :: c0 :: cs')) =
        [drv] ++ splitChar '\\' (normalize (joinBS (c0 :: cs'))) := by
      rw [hj, parse_path_append_sep drv (by simp [drv]) '\\' (by simp [isSep])]
      have : parse_path drv = [drv] := by decide
      rw [this]
    by_cases hjl : joinBS (c0 :: cs') = []
    · have hlit : joinBS (drv :: c0 :: cs') = drvS := by
        rw [hj, hjl]
        rfl
      have hpl : parse_path drvS = [drv, []] := by decide
      simp only [currentSpine, hlit, hpl]
      simp [fNE, nodeAtSpine]
    · have hne1 : joinBS (drv :: c0 :: cs') ≠ [] := by
        rw [hj]
        simp [drv]
      have hne2 : joinBS (drv :: c0 :: cs') ≠ drv := by
        rw [hj]
        intro h
        have := congrArg List.length h
        simp [drv] at this
      have hne3 : joinBS (drv :: c0 :: cs') ≠ drvS := by
        rw [hj]
        intro h
        simp [drv, drvS] at h
        exact hjl h
      have hcond : ¬(joinBS (drv :: c0 :: cs') = [] ∨
          joinBS (drv :: c0 :: cs') = drv ∨
          joinBS (drv :: c0 :: cs') = drvS) := by
        simp [hne1, hne2, hne3]
      simp only [currentSpine, hparse, List.cons_append, List.nil_append,
        List.tail_cons]
      rw [if_neg hcond]
      simp only [if_true]
      rw [walkSpine_false_fst_char]

theorem parse_joinBS_append (cp : List Str) (hcp : cp ≠ [])
    (hne : joinBS cp ≠ []) (qs : List Str) (hqs : qs ≠ [])
    (hq : ∀ q ∈ qs, ('\\' : Char) ∉ q ∧ ('/' : Char) ∉ q) :
    parse_path (joinBS (cp ++ qs)) = parse_path (joinBS cp) ++ qs := by
  rw [joinBS_append cp qs hcp hqs,
    parse_path_append_sep _ hne '\\' (by simp [isSep])]
  have hns : normalize (joinBS qs) = joinBS qs := by
    apply normalize_of_no_slash
    intro hmem
    rcases mem_joinBS qs _ hmem with h | ⟨q, hqm, hxq⟩
    · simp at h
    · exact (hq q hqm).2 hxq
  rw [hns, splitChar_joinBS qs hqs (fun q hqm => (hq q hqm).1)]

theorem nodeAtSpine_nil (n : Node) : nodeAtSpine n [] = some n := by
  cases n <;> rfl

theorem currentSpine_nodeAt (root : Node) (cp : List Str) (A : List Str)
    (h : currentSpine root cp = some A) :
    ∃ n, nodeAtSpine root A = some n := by
  simp only [currentSpine] at h
  split at h
  · obtain rfl : ([] : List Str) = A := by simpa using h
    exact ⟨root, nodeAtSpine_nil root⟩
  · split at h
    · obtain rfl : ([] : List Str) = A := by simpa using h
      exact ⟨root, nodeAtSpine_nil root⟩
    · rename_i s0 rest _
      split at h
      · rw [walkSpine_false_fst_char] at h
        rcases hn : nodeAtSpine root (fNE rest) with _ | n
        · rw [hn] at h
          simp at h
        · rw [hn] at h
          simp only [Option.map_some'] at h
          obtain rfl : fNE rest = A := by simpa using h
          exact ⟨n, hn⟩
      · simp at h

theorem pathAnchor_some_nodeAt (fs : FileSystem) (path : Str) (A : List Str)
    (parts2 : List Str) (hpa : pathAnchor fs path = (some A, parts2)) :
    ∃ n, nodeAtSpine fs.root A = some n := by
  simp only [pathAnchor] at hpa
  split at hpa
  · obtain rfl : ([] : List Str) = A := by
      simpa using congrArg Prod.fst hpa
    exact ⟨fs.root, nodeAtSpine_nil fs.root⟩
  · split at hpa
    · obtain rfl : ([] : List Str) = A := by
        simpa using congrArg Prod.fst hpa
      exact ⟨fs.root, nodeAtSpine_nil fs.root⟩
    · rename_i s0 rest _
      split at hpa
      · obtain rfl : ([] : List Str) = A := by
          simpa using congrArg Prod.fst hpa
        exact ⟨fs.root, nodeAtSpine_nil fs.root⟩
      · have h2 := congrArg Prod.fst hpa
        simp only at h2
        split at h2
        · split at h2
          · exact currentSpine_nodeAt fs.root fs.current_path.dropLast A
              (by simpa using h2)
          · obtain rfl : ([] : List Str) = A := by simpa using h2
            exact ⟨fs.root, nodeAtSpine_nil fs.root⟩
        · exact currentSpine_nodeAt fs.root fs.current_path A
            (by simpa using h2)

/-- Central characterization of pure resolution: the spine exists exactly when
the anchored chain of nonempty segments exists in the tree. -/
theorem resolveSpine_char (fs : FileSystem) (path : Str) (A : List Str)
    (parts2 : List Str) (hpa : pathAnchor fs path = (some A, parts2)) :
    resolveSpine fs path =
      (nodeAtSpine fs.root (A ++ fNE parts2)).map
        (fun _ => A ++ fNE parts2) := by
  obtain ⟨anode, ha⟩ := pathAnchor_some_nodeAt fs path A parts2 hpa
  simp only [resolveSpine, getNodeSpine, hpa, ha]
  rw [walkSpine_false_fst_char, nodeAtSpine_append, ha]
  simp only [Option.some_bind]
  cases nodeAtSpine anode (fNE parts2) <;> simp

theorem joinBS_drv_ne_nil (l : List Str) : joinBS (drv :: l) ≠ [] := by
  rcases l with _ | ⟨x, xs⟩
  · simp [joinBS, drv]
  · simp [joinBS, drv]

theorem fNE_append (a b : List Str) : fNE (a ++ b) = fNE a ++ fNE b := by
  simp [fNE]

theorem fNE_of_nonempty (qs : List Str) (h : ∀ q ∈ qs, q ≠ []) :
    fNE qs = qs := by
  induction qs with
  | nil => rfl
  | cons q rest ih =>
    have hq := h q (by simp)
    simp [fNE, hq, ih (fun x hx => h x (by simp [hx]))]
    simpa [fNE] using ih (fun x hx => h x (by simp [hx]))

theorem mem_fNE (l : List Str) (q : Str) (h : q ∈ fNE l) :
    q ∈ l ∧ q ≠ [] := by
  simp only [fNE, List.mem_filter] at h
  exact ⟨h.1, by simpa using h.2⟩

theorem currentSpine_drv (root : Node) : currentSpine root [drv] = some [] := by
  simp [currentSpine, joinBS]

theorem tail_append_of_ne_nil (l qs : List Str) (h : l ≠ []) :
    (l ++ qs).tail = l.tail ++ qs := by
  rcases l with _ | ⟨x, xs⟩
  · exact absurd rfl h
  · simp

/-- Appending separator-free segments to a drive-anchored current path
denotes exactly the spine extended by the nonempty ones among them. -/
theorem currentSpine_append (root : Node) (cp : List Str)
    (hcd : cp.head? = some drv) (A : List Str)
    (hA : currentSpine root cp = some A) (qs : List Str)
    (hq : ∀ q ∈ qs, ('\\' : Char) ∉ q ∧ ('/' : Char) ∉ q) :
    currentSpine root (cp ++ qs) =
      (nodeAtSpine root (A ++ fNE qs)).map (fun _ => A ++ fNE qs) := by
  rcases cp with _ | ⟨c0, ctail⟩
  · simp at hcd
  · obtain rfl : c0 = drv := by simpa using hcd
    rcases qs with _ | ⟨q0, qrest⟩
    · obtain ⟨n, hn⟩ := currentSpine_nodeAt root (drv :: ctail) A hA
      simp [hA, fNE, hn]
    · have hqs : (q0 :: qrest : List Str) ≠ [] := by simp
      have hparse : parse_path (joinBS ((drv :: ctail) ++ (q0 :: qrest))) =
          parse_path (joinBS (drv :: ctail)) ++ (q0 :: qrest) :=
        parse_joinBS_append (drv :: ctail) (by simp) (joinBS_drv_ne_nil ctail)
          (q0 :: qrest) hqs (fun q hqm => hq q hqm)
      have hchar := currentSpine_char root (ctail ++ (q0 :: qrest))
      rw [show (drv :: ctail) ++ (q0 :: qrest) = drv :: (ctail ++ (q0 :: qrest))
        from rfl] at hparse
      simp only [List.cons_append]
      rw [hchar, hparse,
        tail_append_of_ne_nil _ _ (parse_path_ne_nil _ (joinBS_drv_ne_nil ctail)),
        fNE_append]
      have hchar2 := currentSpine_char root ctail
      rw [hchar2] at hA
      rcases hn : nodeAtSpine root
          (fNE (parse_path (joinBS (drv :: ctail))).tail) with _ | n
      · rw [hn] at hA
        simp at hA
      · rw [hn] at hA
        simp only [Option.map_some'] at hA
        obtain rfl : fNE (parse_path (joinBS (drv :: ctail))).tail = A := by
          simpa using hA
        rfl

theorem fNE_idem (l : List Str) : fNE (fNE l) = fNE l :=
  fNE_of_nonempty _ (fun q hq => (mem_fNE _ _ hq).2)

theorem toUpper_fixed (c d : Char) (hd : Char.toNat d < 65 ∨ 90 < Char.toNat d)
    (h : Char.toUpper c = d) : c = d := by
  unfold Char.toUpper at h
  simp only [] at h
  by_cases hn : Char.toNat c ≥ 97 ∧ Char.toNat c ≤ 122
  · rw [if_pos hn] at h
    exfalso
    have hv : (Char.toNat c - 32).isValidChar := Or.inl (by omega)
    rw [Char.ofNat, dif_pos hv] at h
    have h92 := congrArg (fun e => e.val.toNat) h
    simp only [Char.ofNatAux] at h92
    simp [UInt32.toNat] at h92
    have hd' : Char.toNat d = d.val.toBitVec.toNat := rfl
    omega
  · rwa [if_neg hn] at h

/-- Every segment of a parsed path is free of both separator characters. -/
theorem parse_path_props (p : Str) (q : Str) (hq : q ∈ parse_path p) :
    ('\\' : Char) ∉ q ∧ ('/' : Char) ∉ q := by
  by_cases hp : p = []
  · simp [parse_path, hp] at hq
  · simp only [parse_path, if_neg hp] at hq
    rcases hsp : splitChar '\\' (normalize p) with _ | ⟨s0, ss⟩
    · exact absurd hsp (splitChar_ne_nil _ _)
    · rw [hsp] at hq
      have hq2 : q ∈ (if (':' : Char) ∈ s0 then driveFix s0 :: ss
          else s0 :: ss) := hq
      have hs0 : ∀ r : Str, r ∈ s0 :: ss →
          ('\\' : Char) ∉ r ∧ ('/' : Char) ∉ r := by
        intro r hr
        rw [← hsp] at hr
        refine ⟨splitChar_not_mem _ _ _ hr, fun hx => ?_⟩
        exact normalize_no_slash p (splitChar_subset _ _ _ hr _ hx)
      by_cases hcol : (':' : Char) ∈ s0
      · rw [if_pos hcol] at hq2
        rcases List.mem_cons.mp hq2 with rfl | htl
        · constructor <;> intro hx
          · have hx' : ('\\' : Char) ∈ upper s0 := by
              have : driveFix s0 ⊆ upper s0 := by
                simp only [driveFix]
                split
                · exact List.take_subset _ _
                · exact fun a ha => ha
              exact this hx
            simp only [upper, List.mem_map] at hx'
            obtain ⟨c, hc, hcu⟩ := hx'
            have : c = '\\' := toUpper_fixed c '\\' (by right; decide) hcu
            exact (hs0 s0 (by simp)).1 (this ▸ hc)
          · have hx' : ('/' : Char) ∈ upper s0 := by
              have : driveFix s0 ⊆ upper s0 := by
                simp only [driveFix]
                split
                · exact List.take_subset _ _
                · exact fun a ha => ha
              exact this hx
            simp only [upper, List.mem_map] at hx'
            obtain ⟨c, hc, hcu⟩ := hx'
            have : c = '/' := toUpper_fixed c '/' (by left; decide) hcu
            exact (hs0 s0 (by simp)).2 (this ▸ hc)
        · exact hs0 q (by simp [htl])
      · rw [if_neg hcol] at hq2
        exact hs0 q hq2

theorem splitChar_cons_of_ne (c x : Char) (xs : Str) (hx : ¬ x = c)
    (s0 : Str) (ss : List Str) (h : splitChar c xs = s0 :: ss) :
    splitChar c (x :: xs) = (x :: s0) :: ss := by
  simp only [splitChar, if_neg hx, h]

/-- A path whose first two characters are literally `C:` parses to the drive
segment followed by the remaining pieces. -/
theorem parse_path_drive (path : Str) (h : path.take 2 = drv) :
    ∃ rest, parse_path path = drv :: rest := by
  rcases path with _ | ⟨a, _ | ⟨b, t⟩⟩
  · simp [drv] at h
  · simp [drv, List.take] at h
  · simp only [drv, List.take] at h
    obtain ⟨rfl, rfl⟩ : a = 'C' ∧ b = ':' := by
      injection h with h1 h2
      injection h2 with h2 h3
      exact ⟨h1, h2⟩
    have hn : normalize ('C' :: ':' :: t) = 'C' :: ':' :: normalize t := by
      simp [normalize]
    obtain ⟨s0, ss, hsp⟩ : ∃ s0 ss, splitChar '\\' (normalize t) = s0 :: ss := by
      rcases hx : splitChar '\\' (normalize t) with _ | ⟨s0, ss⟩
      · exact absurd hx (splitChar_ne_nil _ _)
      · exact ⟨s0, ss, rfl⟩
    have h1 : splitChar '\\' (':' :: normalize t) = (':' :: s0) :: ss :=
      splitChar_cons_of_ne _ _ _ (by decide) _ _ hsp
    have h2 : splitChar '\\' ('C' :: ':' :: normalize t) =
        ('C' :: ':' :: s0) :: ss :=
      splitChar_cons_of_ne _ _ _ (by decide) _ _ h1
    have hcol : (':' : Char) ∈ ('C' :: ':' :: s0 : Str) := by simp
    have hC : Char.toUpper 'C' = 'C' := by decide
    have hco : Char.toUpper ':' = ':' := by decide
    have hfix : driveFix ('C' :: ':' :: s0) = drv := by
      rcases s0 with _ | ⟨y, ys⟩
      · simp [driveFix, upper, drv, hC, hco]
      · have hlen : 2 < (upper ('C' :: ':' :: y :: ys)).length := by
          simp [upper]
        simp only [driveFix, if_pos hlen, upper, List.map, hC, hco]
        simp [drv, List.take]
    refine ⟨ss, ?_⟩
    have hpp : parse_path ('C' :: ':' :: t) = driveFix ('C' :: ':' :: s0) :: ss := by
      simp only [parse_path, if_neg (by simp : ¬('C' :: ':' :: t : Str) = []),
        hn, h2]
      rw [if_pos hcol]
    rw [hpp, hfix]

/-- The relative `cd` loop with no `"."`/`".."` segments appends the nonempty
segments. -/
theorem cdRel_no_dots (cp : List Str) (l : List Str)
    (h : ∀ q ∈ l, q ≠ dotS ∧ q ≠ ddotS) :
    cdRel cp l = cp ++ fNE l := by
  induction l generalizing cp with
  | nil => simp [cdRel, fNE]
  | cons q rest ih =>
    obtain ⟨hqd, hqdd⟩ := h q (by simp)
    have hrest : ∀ x ∈ rest, x ≠ dotS ∧ x ≠ ddotS :=
      fun x hx => h x (by simp [hx])
    by_cases hq : q = ([] : Str)
    · subst hq
      rw [show cdRel cp ([] :: rest) = cdRel cp rest from by
        simp [cdRel, hqdd]]
      rw [ih cp hrest]
      simp [fNE]
    · rw [show cdRel cp (q :: rest) = cdRel (cp ++ [q]) rest from by
        simp [cdRel, hqdd, hqd, hq]]
      rw [ih (cp ++ [q]) hrest]
      have hfq : fNE (q :: rest) = q :: fNE rest := by
        rcases q with _ | ⟨qc, qt⟩
        · exact absurd rfl hq
        · simp [fNE, List.filter_cons]
      rw [hfq, List.append_assoc]
      rfl

theorem head_dropLast (cp : List Str) (x : Str) (h : cp.head? = some x)
    (hl : 1 < cp.length) : cp.dropLast.head? = some x := by
  rcases cp with _ | ⟨a, as⟩
  · simp at h
  · obtain rfl : a = x := by simpa using h
    rcases as with _ | ⟨b, bs⟩
    · simp at hl
    · simp [List.dropLast]

/-- Plain resolution returns exactly the node at the anchored extended spine. -/
theorem resolveNode_char (fs : FileSystem) (path : Str) (A : List Str)
    (parts2 : List Str) (hpa : pathAnchor fs path = (some A, parts2)) :
    resolveNode fs path = nodeAtSpine fs.root (A ++ fNE parts2) := by
  rw [resolveNode_eq, resolveSpine_char fs path A parts2 hpa]
  cases h : nodeAtSpine fs.root (A ++ fNE parts2) <;> simp [h]

theorem resolveNode_none_of_anchor (fs : FileSystem) (path : Str)
    (h : (pathAnchor fs path).1 = none) : resolveNode fs path = none := by
  simp [resolveNode, getNodeSpine, h]

theorem currentSpine_drvS (root : Node) :
    currentSpine root [drv, []] = some [] := by
  have : joinBS [drv, []] = drvS := rfl
  rw [currentSpine, this]
  rw [if_pos (by right; right; rfl)]

theorem pathAnchor_ddot (fs : FileSystem) :
    pathAnchor fs ddotS =
      ((if 1 < fs.current_path.length then
          currentSpine fs.root fs.current_path.dropLast
        else some []), []) := by
  have hlit : ¬(ddotS = [] ∨ ddotS = drv ∨ ddotS = drvS) := by decide
  have hpp : parse_path ddotS = [ddotS] := by decide
  rw [pathAnchor, if_neg hlit, hpp]
  by_cases hl : 1 < fs.current_path.length <;>
    simp [hl, show ¬(ddotS = drv) from by decide]

theorem pathAnchor_dotHead (fs : FileSystem) (path : Str) (rest : List Str)
    (hpp : parse_path path = dotS :: rest)
    (hlit : ¬(path = [] ∨ path = drv ∨ path = drvS)) :
    pathAnchor fs path = (currentSpine fs.root fs.current_path, rest) := by
  rw [pathAnchor, if_neg hlit, hpp]
  simp [show ¬(dotS = drv) from by decide, show ¬(dotS = ddotS) from by decide]

theorem pathAnchor_ddotHead (fs : FileSystem) (path : Str) (rest : List Str)
    (hpp : parse_path path = ddotS :: rest)
    (hlit : ¬(path = [] ∨ path = drv ∨ path = drvS))
    (hrest : ∀ q ∈ rest, q ≠ dotS) :
    pathAnchor fs path =
      ((if 1 < fs.current_path.length then
          currentSpine fs.root fs.current_path.dropLast
        else some []), rest) := by
  rw [pathAnchor, if_neg hlit, hpp]
  rcases rest with _ | ⟨q0, qrest⟩
  · by_cases hl : 1 < fs.current_path.length <;>
      simp [hl, show ¬(ddotS = drv) from by decide]
  · have hq0 : q0 ≠ dotS := hrest q0 (by simp)
    by_cases hl : 1 < fs.current_path.length <;>
      simp [hl, show ¬(ddotS = drv) from by decide, hq0]

theorem pathAnchor_plainHead (fs : FileSystem) (path : Str) (s0 : Str)
    (rest : List Str) (hpp : parse_path path = s0 :: rest)
    (hlit : ¬(path = [] ∨ path = drv ∨ path = drvS))
    (h0 : s0 ≠ drv) (h1 : s0 ≠ ddotS) (h2 : s0 ≠ dotS) :
    pathAnchor fs path =
      (currentSpine fs.root fs.current_path, s0 :: rest) := by
  rw [pathAnchor, if_neg hlit, hpp]
  simp [h0, h1, h2]

theorem pathAnchor_driveHead (fs : FileSystem) (path : Str) (rest : List Str)
    (hpp : parse_path path = drv :: rest) (hd : path ≠ drvS) :
    pathAnchor fs path = (some [], rest) := by
  by_cases hl : path = [] ∨ path = drv ∨ path = drvS
  · rcases hl with rfl | rfl | rfl
    · rw [parse_path, if_pos rfl] at hpp
      exact absurd hpp (by simp)
    · have hpd : parse_path drv = [drv] := by decide
      rw [hpd] at hpp
      obtain rfl : rest = [] := by
        injection hpp with h1 h2
        exact h2.symm
      rw [pathAnchor, if_pos (by right; left; rfl)]
    · exact absurd rfl hd
  · rw [pathAnchor, if_neg hl, hpp]
    simp

/-- When resolution truly finds a `dir`, `change_directory` reports success. -/
theorem change_directory_fst (fs : FileSystem) (path : Str) (n2 : Str)
    (c2 m2 : Nat) (ch2 : List (Str × Node))
    (hrn : resolveNode fs path = some (Node.dir n2 c2 m2 ch2)) :
    (change_directory fs path).1 = true := by
  simp only [change_directory, hrn]
  split
  · rfl
  · split
    · rfl
    · split
      · split
        · split <;> rfl
        · rfl
      · rfl

/-! ## C4: the current-directory invariant -/

/-- Claim C4 counterexample: from the initial state — whose current-directory
sequence `["C:"]` denotes the root Directory — `change_directory("c:\DOS")`
returns `true` (resolution upcases the drive segment) yet sets
`current_path` to `["C:", "C:", "DOS"]`, a sequence that denotes no node at
all: the textual update's `path.startswith("C:")` test is case-sensitive, so
the lowercase drive falls into the relative append branch. -/
theorem C4_counterexample :
    currentSpine (initFS 0).root (initFS 0).current_path = some [] ∧
    (nodeAtSpine (initFS 0).root []).map nodeEType = some EType.dir ∧
    (change_directory (initFS 0) (str "c:\\DOS")).1 = true ∧
    (change_directory (initFS 0) (str "c:\\DOS")).2.current_path =
      [str "C:", str "C:", str "DOS"] ∧
    currentSpine (initFS 0).root
      ((change_directory (initFS 0) (str "c:\\DOS")).2.current_path) =
      none := by
  decide

/-- Claim C4 (amended): restricted to path arguments whose parsing agrees
with the textual update — the parsed head is the drive segment only when the
literal text starts with `C:` (ruling out lowercase or mangled drive
spellings), and no `"."` or `".."` occurs after the first parsed segment
(the textual relative loop pops every `".."` while resolution honours only a
leading one) — `change_directory` preserves the invariant: from a state
whose drive-anchored current sequence denotes a Directory, it either
returns `false` with the state unchanged, or returns `true`, leaves the
tree intact, and the new current sequence again denotes a Directory. -/
theorem C4_amended_cd_invariant (fs : FileSystem) (path : Str)
    (hcd : fs.current_path.head? = some drv)
    (a : List Str) (hcur : currentSpine fs.root fs.current_path = some a)
    (dn : Str) (dc dm : Nat) (dch : List (Str × Node))
    (ha : nodeAtSpine fs.root a = some (Node.dir dn dc dm dch))
    (hp1 : (parse_path path).head? = some drv → path.take 2 = drv)
    (hp2 : ∀ q ∈ (parse_path path).tail, q ≠ dotS ∧ q ≠ ddotS) :
    ((change_directory fs path).1 = false →
      (change_directory fs path).2 = fs) ∧
    ((change_directory fs path).1 = true →
      (change_directory fs path).2.root = fs.root ∧
      ∃ a', currentSpine fs.root
          (change_directory fs path).2.current_path = some a' ∧
        ∃ dn' dc' dm' dch',
          nodeAtSpine fs.root a' = some (Node.dir dn' dc' dm' dch')) := by
  rcases hrn : resolveNode fs path with _ | nd
  · constructor
    · intro _
      simp [change_directory, hrn]
    · intro ht
      simp [change_directory, hrn] at ht
  · cases nd with
    | file f1 f2 f3 f4 f5 =>
      constructor
      · intro _
        simp [change_directory, hrn]
      · intro ht
        simp [change_directory, hrn] at ht
    | dir n2 c2 m2 ch2 =>
      refine ⟨?_, fun _ => ?_⟩
      · intro hf
        rw [change_directory_fst fs path n2 c2 m2 ch2 hrn] at hf
        exact absurd hf (by simp)
      · by_cases hb1 : path = ddotS
        · subst hb1
          have hpa := pathAnchor_ddot fs
          by_cases hl : 1 < fs.current_path.length
          · rw [if_pos hl] at hpa
            rcases hA : currentSpine fs.root fs.current_path.dropLast
                with _ | A
            · rw [hA] at hpa
              have hcontra : resolveNode fs ddotS = none :=
                resolveNode_none_of_anchor _ _ (by rw [hpa])
              rw [hrn] at hcontra
              exact absurd hcontra (by simp)
            · rw [hA] at hpa
              have hnode := resolveNode_char fs ddotS A [] hpa
              rw [hrn] at hnode
              have hcdeq : change_directory fs ddotS =
                  (true, { fs with
                    current_path := fs.current_path.dropLast }) := by
                simp [change_directory, hrn, if_pos rfl, if_pos hl]
              rw [hcdeq]
              refine ⟨rfl, A, hA, n2, c2, m2, ch2, ?_⟩
              simpa [fNE] using hnode.symm
          · rw [if_neg hl] at hpa
            have hcdeq : change_directory fs ddotS = (true, fs) := by
              simp [change_directory, hrn, if_pos rfl, if_neg hl]
            rw [hcdeq]
            exact ⟨rfl, a, hcur, dn, dc, dm, dch, ha⟩
        · by_cases hb2 : path = dotS
          · subst hb2
            have hcdeq : change_directory fs dotS = (true, fs) := by
              simp [change_directory, hrn,
                if_neg (show ¬(dotS = ddotS) from by decide), if_pos rfl]
            rw [hcdeq]
            exact ⟨rfl, a, hcur, dn, dc, dm, dch, ha⟩
          · by_cases hb3 : path.take 2 = drv
            · obtain ⟨rest, hpp⟩ := parse_path_drive path hb3
              by_cases hds : path = drvS
              · subst hds
                have hpp2 : parse_path drvS = [drv, []] := by decide
                have hcdeq : change_directory fs drvS =
                    (true, { fs with current_path := [drv, []] }) := by
                  simp [change_directory, hrn,
                    if_neg (show ¬(drvS = ddotS) from by decide),
                    if_neg (show ¬(drvS = dotS) from by decide),
                    if_pos (show drvS.take 2 = drv from by decide), hpp2,
                    if_pos rfl]
                have hpa : pathAnchor fs drvS = (some [], []) := by
                  rw [pathAnchor, if_pos (by right; right; rfl)]
                have hnode := resolveNode_char fs drvS [] [] hpa
                rw [hrn] at hnode
                rw [hcdeq]
                refine ⟨rfl, [], currentSpine_drvS fs.root,
                  n2, c2, m2, ch2, ?_⟩
                simpa [fNE] using hnode.symm
              · have hpa := pathAnchor_driveHead fs path rest hpp hds
                have hnode := resolveNode_char fs path [] rest hpa
                rw [hrn] at hnode
                have hcdeq : change_directory fs path =
                    (true, { fs with current_path := drv :: rest }) := by
                  simp [change_directory, hrn, if_neg hb1, if_neg hb2,
                    if_pos hb3, hpp, if_pos rfl]
                rw [hcdeq]
                have hsep : ∀ q ∈ rest,
                    ('\\' : Char) ∉ q ∧ ('/' : Char) ∉ q := by
                  intro q hq
                  exact parse_path_tail_props path q
                    (by rw [hpp]; simpa using hq)
                have hkey := currentSpine_append fs.root [drv] rfl []
                  (currentSpine_drv fs.root) rest hsep
                refine ⟨rfl, fNE rest, ?_, n2, c2, m2, ch2, ?_⟩
                · rw [show (drv :: rest : List Str) = [drv] ++ rest from rfl,
                    hkey, ← hnode]
                  rfl
                · exact hnode.symm
            · by_cases hpe : path = []
              · subst hpe
                have hcdeq : change_directory fs [] = (true, fs) := by
                  simp [change_directory, hrn, if_neg hb1, if_neg hb2,
                    if_neg hb3]
                  rfl
                rw [hcdeq]
                exact ⟨rfl, a, hcur, dn, dc, dm, dch, ha⟩
              · obtain ⟨s0, rest, hpp⟩ :
                    ∃ s0 rest, parse_path path = s0 :: rest := by
                  rcases hp : parse_path path with _ | ⟨s0, rest⟩
                  · exact absurd hp (parse_path_ne_nil path hpe)
                  · exact ⟨s0, rest, rfl⟩
                have hlit : ¬(path = [] ∨ path = drv ∨ path = drvS) := by
                  rintro (rfl | rfl | rfl)
                  · exact hpe rfl
                  · exact hb3 (by decide)
                  · exact hb3 (by decide)
                have hs0drv : s0 ≠ drv := by
                  intro h
                  exact hb3 (hp1 (by rw [hpp, h]; rfl))
                have hrest : ∀ q ∈ rest, q ≠ dotS ∧ q ≠ ddotS := by
                  intro q hq
                  exact hp2 q (by rw [hpp]; simpa using hq)
                have hrsep : ∀ q ∈ rest,
                    ('\\' : Char) ∉ q ∧ ('/' : Char) ∉ q := by
                  intro q hq
                  exact parse_path_tail_props path q
                    (by rw [hpp]; simpa using hq)
                have hcdeq : change_directory fs path =
                    (true, { fs with
                      current_path :=
                        cdRel fs.current_path (s0 :: rest) }) := by
                  simp [change_directory, hrn, if_neg hb1, if_neg hb2,
                    if_neg hb3, hpp]
                rw [hcdeq]
                by_cases hs0dd : s0 = ddotS
                · subst hs0dd
                  have hstep : cdRel fs.current_path (ddotS :: rest) =
                      (if 1 < fs.current_path.length then
                        fs.current_path.dropLast
                      else fs.current_path) ++ fNE rest := by
                    rw [show cdRel fs.current_path (ddotS :: rest) =
                      cdRel (if 1 < fs.current_path.length then
                        fs.current_path.dropLast else fs.current_path) rest
                      from by simp [cdRel]]
                    exact cdRel_no_dots _ rest hrest
                  have hpa := pathAnchor_ddotHead fs path rest hpp hlit
                    (fun q hq => (hrest q hq).1)
                  by_cases hl : 1 < fs.current_path.length
                  · rw [if_pos hl] at hpa
                    rcases hA : currentSpine fs.root fs.current_path.dropLast
                        with _ | A
                    · rw [hA] at hpa
                      have hcontra : resolveNode fs path = none :=
                        resolveNode_none_of_anchor _ _ (by rw [hpa])
                      rw [hrn] at hcontra
                      exact absurd hcontra (by simp)
                    · rw [hA] at hpa
                      have hnode := resolveNode_char fs path A rest hpa
                      rw [hrn] at hnode
                      have hkey := currentSpine_append fs.root
                        fs.current_path.dropLast
                        (head_dropLast _ _ hcd hl) A hA (fNE rest)
                        (fun q hq => hrsep q (mem_fNE _ _ hq).1)
                      rw [hstep, if_pos hl]
                      refine ⟨rfl, A ++ fNE rest, ?_, n2, c2, m2, ch2, ?_⟩
                      · rw [hkey, fNE_idem, ← hnode]
                        rfl
                      · exact hnode.symm
                  · rw [if_neg hl] at hpa
                    have hcp1 : fs.current_path = [drv] := by
                      rcases hcpv : fs.current_path with _ | ⟨x, xs⟩
                      · rw [hcpv] at hcd
                        simp at hcd
                      · rw [hcpv] at hcd hl
                        obtain rfl : x = drv := by simpa using hcd
                        rcases xs with _ | ⟨y, ys⟩
                        · rfl
                        · simp at hl
                    have hnode := resolveNode_char fs path [] rest hpa
                    rw [hrn] at hnode
                    rw [hstep, if_neg hl, hcp1]
                    have hkey := currentSpine_append fs.root [drv] rfl []
                      (currentSpine_drv fs.root) (fNE rest)
                      (fun q hq => hrsep q (mem_fNE _ _ hq).1)
                    refine ⟨rfl, fNE rest, ?_, n2, c2, m2, ch2, ?_⟩
                    · rw [hkey, fNE_idem, ← hnode]
                      rfl
                    · exact hnode.symm
                · by_cases hs0d : s0 = dotS
                  · subst hs0d
                    have hstep : cdRel fs.current_path (dotS :: rest) =
                        fs.current_path ++ fNE rest := by
                      rw [show cdRel fs.current_path (dotS :: rest) =
                        cdRel fs.current_path rest from by
                          simp [cdRel, show ¬(dotS = ddotS) from by decide]]
                      exact cdRel_no_dots _ rest hrest
                    have hpa := pathAnchor_dotHead fs path rest hpp hlit
                    rw [hcur] at hpa
                    have hnode := resolveNode_char fs path a rest hpa
                    rw [hrn] at hnode
                    have hkey := currentSpine_append fs.root fs.current_path
                      hcd a hcur (fNE rest)
                      (fun q hq => hrsep q (mem_fNE _ _ hq).1)
                    rw [hstep]
                    refine ⟨rfl, a ++ fNE rest, ?_, n2, c2, m2, ch2, ?_⟩
                    · rw [hkey, fNE_idem, ← hnode]
                      rfl
                    · exact hnode.symm
                  · have hpa := pathAnchor_plainHead fs path s0 rest hpp hlit
                      hs0drv hs0dd hs0d
                    rw [hcur] at hpa
                    have hnode := resolveNode_char fs path a (s0 :: rest) hpa
                    rw [hrn] at hnode
                    have hstep : cdRel fs.current_path (s0 :: rest) =
                        fs.current_path ++ fNE (s0 :: rest) :=
                      cdRel_no_dots _ _ (by
                        intro q hq
                        rcases List.mem_cons.mp hq with rfl | hq2
                        · exact ⟨hs0d, hs0dd⟩
                        · exact hrest q hq2)
                    have hs0sep : ('\\' : Char) ∉ s0 ∧ ('/' : Char) ∉ s0 :=
                      parse_path_props path s0 (by rw [hpp]; simp)
                    have hkey := currentSpine_append fs.root fs.current_path
                      hcd a hcur (fNE (s0 :: rest)) (fun q hq => by
                        rcases List.mem_cons.mp (mem_fNE _ _ hq).1 with
                          rfl | hq2
                        · exact hs0sep
                        · exact hrsep q hq2)
                    rw [hstep]
                    refine ⟨rfl, a ++ fNE (s0 :: rest), ?_,
                      n2, c2, m2, ch2, ?_⟩
                    · rw [hkey, fNE_idem, ← hnode]
                      rfl
                    · exact hnode.symm

/-- Witness for the amended C4 invariant at a concrete state and path. -/
theorem C4_amended_cd_invariant_witness :
    ((change_directory (initFS 0) (str "DOS")).1 = false →
      (change_directory (initFS 0) (str "DOS")).2 = initFS 0) ∧
    ((change_directory (initFS 0) (str "DOS")).1 = true →
      (change_directory (initFS 0) (str "DOS")).2.root = (initFS 0).root ∧
      ∃ a', currentSpine (initFS 0).root
          (change_directory (initFS 0) (str "DOS")).2.current_path =
            some a' ∧
        ∃ dn' dc' dm' dch',
          nodeAtSpine (initFS 0).root a' =
            some (Node.dir dn' dc' dm' dch')) :=
  C4_amended_cd_invariant (initFS 0) (str "DOS") (by decide) []
    (by decide) drv 0 0
    [(str "DOS", Node.dir (str "DOS") 0 0
      [(str "README.TXT", Node.file (str "README.TXT") 0 0 177 readmeText)])]
    rfl (by decide)
    (by
      intro q hq
      rw [show (parse_path (str "DOS")).tail = [] from by decide] at hq
      exact absurd hq (by simp))

/-! ## C9: resolution and empty segments -/

theorem fNE_cons_empty (l : List Str) : fNE ([] :: l) = fNE l := by
  simp [fNE]

theorem normalize_sep_cons (c : Char) (hc : isSep c = true) (v : Str) :
    splitChar '\\' (normalize (c :: v)) = [] :: splitChar '\\' (normalize v) := by
  have hn : normalize (c :: v) = '\\' :: normalize v := by
    simp only [isSep, Bool.or_eq_true, decide_eq_true_eq] at hc
    rcases hc with hc | hc <;> simp [normalize, hc]
  rw [hn]
  simp [splitChar]

theorem pathAnchor_ddotHead_trim (fs : FileSystem) (path : Str)
    (rest : List Str) (hpp : parse_path path = ddotS :: rest)
    (hlit : ¬(path = [] ∨ path = drv ∨ path = drvS)) :
    pathAnchor fs path =
      ((if 1 < fs.current_path.length then
          currentSpine fs.root fs.current_path.dropLast
        else some []), dTrim rest) := by
  rw [pathAnchor, if_neg hlit, hpp]
  rcases rest with _ | ⟨q0, qrest⟩
  · by_cases hl : 1 < fs.current_path.length <;>
      simp [hl, show ¬(ddotS = drv) from by decide, dTrim]
  · by_cases hl : 1 < fs.current_path.length <;>
      by_cases hq : q0 = dotS <;>
        simp [hl, hq, show ¬(ddotS = drv) from by decide, dTrim]

/-- Resolution depends only on the anchor and the nonempty walked segments. -/
theorem resolveSpine_congr (fs : FileSystem) (p p' : Str)
    (A? : Option (List Str)) (parts1 parts2 : List Str)
    (hpa : pathAnchor fs p = (A?, parts1))
    (hpa2 : pathAnchor fs p' = (A?, parts2))
    (h2 : fNE parts1 = fNE parts2) :
    resolveSpine fs p = resolveSpine fs p' := by
  cases A? with
  | none => simp [resolveSpine, getNodeSpine, hpa, hpa2]
  | some A =>
    rw [resolveSpine_char fs p A parts1 hpa,
      resolveSpine_char fs p' A parts2 hpa2, h2]

theorem sep_ne_colon (c : Char) (hc : isSep c = true) : c ≠ ':' := by
  simp only [isSep, Bool.or_eq_true, decide_eq_true_eq] at hc
  rcases hc with rfl | rfl <;> decide

theorem sep_not_mem_drv (c : Char) (hc : isSep c = true) : c ∉ drv := by
  simp only [isSep, Bool.or_eq_true, decide_eq_true_eq] at hc
  rcases hc with rfl | rfl <;> decide

theorem pathAnchor_lit (fs : FileSystem) (p : Str)
    (h : p = [] ∨ p = drv ∨ p = drvS) : pathAnchor fs p = (some [], []) := by
  rw [pathAnchor, if_pos h]

theorem fNE_cons_append (x : Str) (l m : List Str) :
    fNE (x :: (l ++ [] :: m)) = fNE (x :: (l ++ m)) := by
  rw [show x :: (l ++ [] :: m) = [x] ++ (l ++ [] :: m) from rfl,
    show x :: (l ++ m) = [x] ++ (l ++ m) from rfl,
    fNE_append, fNE_append, fNE_append, fNE_append, fNE_cons_empty]

theorem fNE_cons_concat (x : Str) (l : List Str) :
    fNE (x :: (l ++ [[]])) = fNE (x :: l) := by
  have h := fNE_cons_append x l []
  simpa using h

/-- Claim C9 counterexample: at the post-`cd DOS` state, resolving the empty
path yields the root while resolving a bare separator yields the current
directory `DOS` (the empty path hits the literal-root shortcut; the
separator path anchors at the current node); and doubling the separator
that follows a leading `".."` segment before a `"."` segment defeats the
leading-`"."` trim, so `"..\.\DOS"` resolves while `"..\\.\DOS"` does not. -/
theorem C9_counterexample :
    resolveSpine dosFS (str "") = some [] ∧
    resolveSpine dosFS (str "" ++ ['\\']) = some [str "DOS"] ∧
    resolveSpine dosFS (str "..\\.\\DOS") = some [str "DOS"] ∧
    resolveSpine dosFS (str "..\\\\.\\DOS") = none := by
  decide

/-- Claim C9 (amended): for every nonempty path, appending a trailing
separator preserves resolution; and doubling a separator that follows a
nonempty prefix preserves resolution unless the prefix parses to exactly a
`".."` segment and the suffix begins with a `"."` segment (in which case the
inserted empty segment shields the `"."` from the leading-dot trim).  The
empty path is genuinely excepted: `""` hits the literal-root shortcut while
`"\"` walks from the current directory. -/
theorem C9_amended_empty_segments (fs : FileSystem) (c : Char)
    (hc : isSep c = true) :
    (∀ p : Str, p ≠ [] →
      resolveSpine fs (p ++ [c]) = resolveSpine fs p) ∧
    (∀ u v : Str, u ≠ [] →
      ¬(parse_path u = [ddotS] ∧
        (splitChar '\\' (normalize v)).head? = some dotS) →
      resolveSpine fs (u ++ c :: c :: v) = resolveSpine fs (u ++ c :: v)) := by
  constructor
  · intro p hp
    by_cases hlitp : p = [] ∨ p = drv ∨ p = drvS
    · rcases hlitp with rfl | rfl | rfl
      · exact absurd rfl hp
      · have hc' : c = '\\' ∨ c = '/' := by simpa [isSep] using hc
        rcases hc' with rfl | rfl
        · exact resolveSpine_congr fs (drv ++ ['\\']) drv (some []) [] []
            (pathAnchor_lit fs _ (by right; right; rfl))
            (pathAnchor_lit fs _ (by right; left; rfl)) rfl
        · exact resolveSpine_congr fs (drv ++ ['/']) drv (some []) [[]] []
            (pathAnchor_driveHead fs _ [[]] (by decide) (by decide))
            (pathAnchor_lit fs _ (by right; left; rfl)) (by decide)
      · have hc' : c = '\\' ∨ c = '/' := by simpa [isSep] using hc
        rcases hc' with rfl | rfl
        · exact resolveSpine_congr fs (drvS ++ ['\\']) drvS (some [])
            [[], []] []
            (pathAnchor_driveHead fs _ [[], []] (by decide) (by decide))
            (pathAnchor_lit fs _ (by right; right; rfl)) (by decide)
        · exact resolveSpine_congr fs (drvS ++ ['/']) drvS (some [])
            [[], []] []
            (pathAnchor_driveHead fs _ [[], []] (by decide) (by decide))
            (pathAnchor_lit fs _ (by right; right; rfl)) (by decide)
    · obtain ⟨s0, rest, hpp⟩ : ∃ s0 rest, parse_path p = s0 :: rest := by
        rcases h : parse_path p with _ | ⟨s0, rest⟩
        · exact absurd h (parse_path_ne_nil p hp)
        · exact ⟨s0, rest, rfl⟩
      have hpp' : parse_path (p ++ [c]) = s0 :: (rest ++ [[]]) := by
        have h := parse_path_append_sep p hp c hc []
        rw [hpp] at h
        simpa [normalize, splitChar] using h
      have hds' : p ++ [c] ≠ drvS := by
        intro h
        have hd := congrArg List.dropLast h
        simp [drvS] at hd
        exact hlitp (Or.inr (Or.inl hd))
      have hlit' : ¬(p ++ [c] = [] ∨ p ++ [c] = drv ∨ p ++ [c] = drvS) := by
        rintro (h | h | h)
        · simp at h
        · exact sep_not_mem_drv c hc (by rw [← h]; simp)
        · exact hds' h
      have hdsp : p ≠ drvS := fun h => hlitp (Or.inr (Or.inr h))
      by_cases hs0 : s0 = drv
      · subst hs0
        exact resolveSpine_congr fs (p ++ [c]) p (some [])
          (rest ++ [[]]) rest
          (pathAnchor_driveHead fs _ _ hpp' hds')
          (pathAnchor_driveHead fs _ _ hpp hdsp)
          (by rw [fNE_append]; simp [fNE])
      · by_cases hs0d : s0 = ddotS
        · subst hs0d
          refine resolveSpine_congr fs (p ++ [c]) p _ _ _
            (pathAnchor_ddotHead_trim fs _ _ hpp' hlit')
            (pathAnchor_ddotHead_trim fs _ _ hpp hlitp) ?_
          rcases rest with _ | ⟨q, t⟩
          · simp [dTrim, fNE, show ¬(([] : Str) = dotS) from by decide]
          · simp only [List.cons_append, dTrim]
            by_cases hq : q = dotS
            · simp only [if_pos hq, fNE_append]
              simp [fNE]
            · simp only [if_neg hq]
              exact fNE_cons_concat q t
        · by_cases hs0dot : s0 = dotS
          · subst hs0dot
            refine resolveSpine_congr fs (p ++ [c]) p _ _ _
              (pathAnchor_dotHead fs _ _ hpp' hlit')
              (pathAnchor_dotHead fs _ _ hpp hlitp) ?_
            rw [fNE_append]
            simp [fNE]
          · refine resolveSpine_congr fs (p ++ [c]) p _ _ _
              (pathAnchor_plainHead fs _ _ _ hpp' hlit' hs0 hs0d hs0dot)
              (pathAnchor_plainHead fs _ _ _ hpp hlitp hs0 hs0d hs0dot) ?_
            exact fNE_cons_concat s0 rest
  · intro u v hu hexc
    obtain ⟨s0, ru, hpu⟩ : ∃ s0 ru, parse_path u = s0 :: ru := by
      rcases h : parse_path u with _ | ⟨s0, ru⟩
      · exact absurd h (parse_path_ne_nil u hu)
      · exact ⟨s0, ru, rfl⟩
    have hpp1 : parse_path (u ++ c :: v) =
        s0 :: (ru ++ splitChar '\\' (normalize v)) := by
      rw [parse_path_append_sep u hu c hc v, hpu]
      rfl
    have hpp2 : parse_path (u ++ c :: c :: v) =
        s0 :: (ru ++ [] :: splitChar '\\' (normalize v)) := by
      rw [parse_path_append_sep u hu c hc (c :: v), normalize_sep_cons c hc v,
        hpu]
      rfl
    have hds2 : u ++ c :: c :: v ≠ drvS := by
      intro h
      rcases u with _ | ⟨a, u1⟩
      · exact hu rfl
      · injection h with h0 h1
        rcases u1 with _ | ⟨b, u2⟩
        · injection h1 with h2 h3
          exact sep_ne_colon c hc h2
        · injection h1 with h2 h3
          rcases u2 with _ | ⟨d, u3⟩
          · injection h3 with h4 h5
            exact absurd h5 (by simp)
          · injection h3 with h4 h5
            exact absurd h5 (by simp)
    by_cases hds1 : u ++ c :: v = drvS
    · have huv : u = drv ∧ c = '\\' ∧ v = [] := by
        rcases u with _ | ⟨a, u1⟩
        · exact absurd rfl hu
        · injection hds1 with h0 h1
          subst h0
          rcases u1 with _ | ⟨b, u2⟩
          · injection h1 with h2 h3
            exact absurd h2 (sep_ne_colon c hc)
          · injection h1 with h2 h3
            subst h2
            rcases u2 with _ | ⟨d, u3⟩
            · injection h3 with h4 h5
              subst h4
              exact ⟨rfl, rfl, h5⟩
            · injection h3 with h4 h5
              exact absurd h5 (by simp)
      obtain ⟨rfl, rfl, rfl⟩ := huv
      exact resolveSpine_congr fs (drv ++ ['\\', '\\']) (drv ++ ['\\'])
        (some []) [[], []] []
        (pathAnchor_driveHead fs _ [[], []] (by decide) (by decide))
        (pathAnchor_lit fs _ (by right; right; rfl)) (by decide)
    · have hlit1 : ¬(u ++ c :: v = [] ∨ u ++ c :: v = drv ∨
          u ++ c :: v = drvS) := by
        rintro (h | h | h)
        · simp at h
        · exact sep_not_mem_drv c hc (by rw [← h]; simp)
        · exact hds1 h
      have hlit2 : ¬(u ++ c :: c :: v = [] ∨ u ++ c :: c :: v = drv ∨
          u ++ c :: c :: v = drvS) := by
        rintro (h | h | h)
        · simp at h
        · exact sep_not_mem_drv c hc (by rw [← h]; simp)
        · exact hds2 h
      by_cases hs0 : s0 = drv
      · subst hs0
        exact resolveSpine_congr fs (u ++ c :: c :: v) (u ++ c :: v) (some [])
          _ _ (pathAnchor_driveHead fs _ _ hpp2 hds2)
          (pathAnchor_driveHead fs _ _ hpp1 hds1)
          (by rw [fNE_append, fNE_append, fNE_cons_empty])
      · by_cases hs0d : s0 = ddotS
        · subst hs0d
          refine resolveSpine_congr fs (u ++ c :: c :: v) (u ++ c :: v) _ _ _
            (pathAnchor_ddotHead_trim fs _ _ hpp2 hlit2)
            (pathAnchor_ddotHead_trim fs _ _ hpp1 hlit1) ?_
          rcases ru with _ | ⟨r0, rt⟩
          · have hnd : ¬((splitChar '\\' (normalize v)).head? = some dotS) :=
              fun h => hexc ⟨hpu, h⟩
            rcases hSV : splitChar '\\' (normalize v) with _ | ⟨q, t⟩
            · simp [dTrim, fNE, show ¬(([] : Str) = dotS) from by decide]
            · have hq : q ≠ dotS := fun h => hnd (by rw [hSV, h]; rfl)
              simp only [List.nil_append, dTrim,
                if_neg (show ¬(([] : Str) = dotS) from by decide), if_neg hq]
              exact fNE_cons_empty (q :: t)
          · simp only [List.cons_append, dTrim]
            by_cases hr0 : r0 = dotS
            · simp only [if_pos hr0]
              rw [fNE_append, fNE_append, fNE_cons_empty]
            · simp only [if_neg hr0]
              exact fNE_cons_append r0 rt _
        · by_cases hs0dot : s0 = dotS
          · subst hs0dot
            refine resolveSpine_congr fs (u ++ c :: c :: v) (u ++ c :: v)
              _ _ _ (pathAnchor_dotHead fs _ _ hpp2 hlit2)
              (pathAnchor_dotHead fs _ _ hpp1 hlit1) ?_
            rw [fNE_append, fNE_append, fNE_cons_empty]
          · refine resolveSpine_congr fs (u ++ c :: c :: v) (u ++ c :: v)
              _ _ _ (pathAnchor_plainHead fs _ _ _ hpp2 hlit2 hs0 hs0d hs0dot)
              (pathAnchor_plainHead fs _ _ _ hpp1 hlit1 hs0 hs0d hs0dot) ?_
            exact fNE_cons_append s0 ru _

/-- Witness for the amended C9 invariances at the concrete post-`cd DOS`
state with the backslash separator. -/
theorem C9_amended_empty_segments_witness :
    (∀ p : Str, p ≠ [] →
      resolveSpine dosFS (p ++ ['\\']) = resolveSpine dosFS p) ∧
    (∀ u v : Str, u ≠ [] →
      ¬(parse_path u = [ddotS] ∧
        (splitChar '\\' (normalize v)).head? = some dotS) →
      resolveSpine dosFS (u ++ '\\' :: '\\' :: v) =
        resolveSpine dosFS (u ++ '\\' :: v)) :=
  C9_amended_empty_segments dosFS '\\' (by decide)

/-! ## C1: write/read round trip and the size invariant -/

theorem sizeInvL_lookup (ch : List (Str × Node)) (k : Str) (c : Node)
    (h : sizeInvL ch = true) (hl : lookupKey k ch = some c) :
    sizeInv c = true := by
  induction ch with
  | nil => simp [lookupKey] at hl
  | cons hd tl ih =>
    simp only [sizeInvL, Bool.and_eq_true] at h
    rw [lookupKey] at hl
    by_cases hk : hd.1 = k
    · rw [if_pos hk] at hl
      obtain rfl : hd.2 = c := by simpa using hl
      exact h.1
    · rw [if_neg hk] at hl
      exact ih h.2 hl

theorem sizeInvL_setKey (ch : List (Str × Node)) (k : Str) (v : Node)
    (h : sizeInvL ch = true) (hv : sizeInv v = true) :
    sizeInvL (setKey k v ch) = true := by
  induction ch with
  | nil => simp [setKey, sizeInvL, hv]
  | cons hd tl ih =>
    simp only [sizeInvL, Bool.and_eq_true] at h
    rw [setKey]
    by_cases hk : hd.1 = k
    · rw [if_pos hk]
      simp [sizeInvL, hv, h.2]
    · rw [if_neg hk]
      simp [sizeInvL, h.1, ih h.2]

theorem sizeInv_nodeAt (root : Node) (T : List Str) (x : Node)
    (h : sizeInv root = true) (hx : nodeAtSpine root T = some x) :
    sizeInv x = true := by
  induction T generalizing root with
  | nil =>
    cases root <;>
      (obtain rfl : _ = x := by simpa [nodeAtSpine] using hx
       exact h)
  | cons k ks ih =>
    match root, hx with
    | .file _ _ _ _ _, hx => simp [nodeAtSpine] at hx
    | .dir nm c m ch, hx =>
      rw [nodeAtSpine] at hx
      rcases hl : lookupKey k ch with _ | child
      · rw [hl] at hx
        simp at hx
      · rw [hl] at hx
        exact ih child (sizeInvL_lookup ch k child (by simpa [sizeInv] using h) hl) hx

theorem sizeInv_updateAtSpine (root : Node) (S : List Str) (v : Node)
    (h : sizeInv root = true) (hv : sizeInv v = true) :
    sizeInv (updateAtSpine root S (fun _ => v)) = true := by
  induction S generalizing root with
  | nil =>
    cases root <;> simpa [updateAtSpine] using hv
  | cons k ks ih =>
    match root with
    | .file n c m s co => simpa [updateAtSpine] using h
    | .dir nm c m ch =>
      rw [updateAtSpine]
      rcases hl : lookupKey k ch with _ | child
      · simpa [sizeInv] using h
      · have hch : sizeInvL ch = true := by simpa [sizeInv] using h
        have hc := sizeInvL_lookup ch k child hch hl
        simp only [sizeInv]
        exact sizeInvL_setKey ch k _ hch (ih child hc)

/-- A spine that extends into an updated region still has a node at every
prefix of the update spine. -/
theorem nodeAtSpine_update_prefix (T rest : List Str) (root : Node)
    (f : Node → Node) (x : Node)
    (hx : nodeAtSpine root (T ++ rest) = some x) :
    ∃ y, nodeAtSpine (updateAtSpine root (T ++ rest) f) T = some y := by
  induction T generalizing root with
  | nil => exact ⟨_, nodeAtSpine_nil _⟩
  | cons k ks ih =>
    match root, hx with
    | .file _ _ _ _ _, hx => simp [nodeAtSpine] at hx
    | .dir nm c m ch, hx =>
      rw [show ((k :: ks) ++ rest : List Str) = k :: (ks ++ rest) from rfl]
        at hx ⊢
      rw [nodeAtSpine] at hx
      rcases hl : lookupKey k ch with _ | child
      · rw [hl] at hx
        simp at hx
      · rw [hl] at hx
        rw [updateAtSpine, hl]
        obtain ⟨y, hy⟩ := ih child hx
        refine ⟨y, ?_⟩
        rw [nodeAtSpine, lookupKey_setKey_self]
        exact hy

/-- `currentSpine` is unchanged by an update at a spine extending the
denoted one. -/
theorem currentSpine_update (root : Node) (cp : List Str) (A rest : List Str)
    (hA : currentSpine root cp = some A) (f : Node → Node) (x : Node)
    (hx : nodeAtSpine root (A ++ rest) = some x) :
    currentSpine (updateAtSpine root (A ++ rest) f) cp = some A := by
  simp only [currentSpine] at hA ⊢
  by_cases hlit : joinBS cp = [] ∨ joinBS cp = drv ∨ joinBS cp = drvS
  · rw [if_pos hlit] at hA ⊢
    exact hA
  · rw [if_neg hlit] at hA ⊢
    rcases h2 : parse_path (joinBS cp) with _ | ⟨s0, rst⟩
    · simp only [h2] at hA ⊢
      exact hA
    · simp only [h2] at hA ⊢
      by_cases h3 : s0 = drv
      · rw [if_pos h3] at hA ⊢
        rw [walkSpine_false_fst_char] at hA ⊢
        rcases hn : nodeAtSpine root (fNE rst) with _ | n
        · rw [hn] at hA
          simp at hA
        · rw [hn] at hA
          simp only [Option.map_some'] at hA
          obtain rfl : fNE rst = A := by simpa using hA
          obtain ⟨y, hy⟩ := nodeAtSpine_update_prefix (fNE rst) rest root f x hx
          rw [hy]
          rfl
      · rw [if_neg h3] at hA
        simp at hA

/-- `pathAnchor` is unchanged by an update below the anchor it selects. -/
theorem pathAnchor_update (fs : FileSystem) (p : Str) (A P2 rest : List Str)
    (hpa : pathAnchor fs p = (some A, P2)) (f : Node → Node) (x : Node)
    (hx : nodeAtSpine fs.root (A ++ rest) = some x) :
    pathAnchor
      { fs with root := updateAtSpine fs.root (A ++ rest) f } p =
      (some A, P2) := by
  simp only [pathAnchor] at hpa ⊢
  by_cases h1 : p = [] ∨ p = drv ∨ p = drvS
  · rw [if_pos h1] at hpa ⊢
    exact hpa
  · rw [if_neg h1] at hpa ⊢
    rcases h2 : parse_path p with _ | ⟨s0, rst⟩
    · simp only [h2] at hpa ⊢
      exact hpa
    · simp only [h2] at hpa ⊢
      by_cases h3 : s0 = drv
      · rw [if_pos h3] at hpa ⊢
        exact hpa
      · rw [if_neg h3] at hpa ⊢
        by_cases h4 : s0 = ddotS
        · rw [if_pos h4] at hpa ⊢
          by_cases h5 : 1 < fs.current_path.length
          · rw [if_pos h5] at hpa ⊢
            have hA2 : currentSpine fs.root fs.current_path.dropLast =
                some A := by
              have := congrArg Prod.fst hpa
              simpa using this
            rw [currentSpine_update fs.root _ A rest hA2 f x hx]
            have := congrArg Prod.snd hpa
            simpa using this
          · rw [if_neg h5] at hpa ⊢
            exact hpa
        · rw [if_neg h4] at hpa ⊢
          have hA2 : currentSpine fs.root fs.current_path = some A := by
            have := congrArg Prod.fst hpa
            simpa using this
          rw [currentSpine_update fs.root _ A rest hA2 f x hx]
          have := congrArg Prod.snd hpa
          simpa using this

/-- Claim C1 counterexample: `write_file("C:A.TXT", "hi")` has a valid
filename component and succeeds — the split parent `"C:"` resolves to the
root, so the file lands there — yet `read_file("C:A.TXT")` returns absent:
`parse_path` truncates the single segment `C:A.TXT` to the drive marker
`C:`, so the read resolves the whole path to the root directory, not to the
file just written. -/
theorem C1_counterexample :
    is_valid_filename (nt_split (str "C:A.TXT")).2 = true ∧
    (write_file (initFS 0) (str "C:A.TXT") (str "hi") 5).1 = WStatus.ok ∧
    read_file (write_file (initFS 0) (str "C:A.TXT") (str "hi") 5).2
      (str "C:A.TXT") = none := by
  decide

/-- Claim C1 (amended): restricted to paths whose resolution decomposes as
the parent's resolution followed by the basename — the anchors selected for
the path and for its split-off parent agree and the walked nonempty
segments of the path are those of the parent plus the basename (this rules
out the drive-relative form `C:NAME`, which splits into parent `C:` and a
basename that resolution never reaches because `parse_path` collapses
`C:NAME` to the bare drive) — and whose parent resolves without
intermediate creation: a successful `write_file(p, c)` stores a File of
size `len(c)` with modification time `now`, a subsequent `read_file(p)`
returns exactly `c`, and the size invariant `size == len(content)` is
preserved across the write. -/
theorem C1_amended_write_read (fs : FileSystem) (p content : Str) (now : Nat)
    (A P2 D2 : List Str)
    (hpa : pathAnchor fs p = (some A, P2))
    (hpad : pathAnchor fs (dirOr (nt_split p).1) = (some A, D2))
    (hP : fNE P2 = fNE D2 ++ [(nt_split p).2])
    (S : List Str)
    (hres : resolveSpine fs (dirOr (nt_split p).1) = some S) :
    (write_file fs p content now).1 = WStatus.ok →
      read_file (write_file fs p content now).2 p = some content ∧
      (∃ nm cr, resolveNode (write_file fs p content now).2 p =
        some (Node.file nm cr now content.length content)) ∧
      (sizeInv fs.root = true →
        sizeInv (write_file fs p content now).2.root = true) := by
  intro hok
  have hchar := resolveSpine_char fs (dirOr (nt_split p).1) A D2 hpad
  rw [hres] at hchar
  rcases hx : nodeAtSpine fs.root (A ++ fNE D2) with _ | parent
  · rw [hx] at hchar
    simp at hchar
  · rw [hx] at hchar
    simp only [Option.map_some'] at hchar
    obtain rfl : S = A ++ fNE D2 := by simpa using hchar
    have hg := getNodeSpine_create_of_resolved fs (dirOr (nt_split p).1) now
      (A ++ fNE D2) hres
    have hg' : getNodeSpine fs
        (if (nt_split p).1 = [] then dotS else (nt_split p).1) true now =
        (some (A ++ fNE D2), fs.root) := hg
    by_cases hv : is_valid_filename (nt_split p).2 = true
    · match parent, hx with
      | Node.file f1 f2 f3 f4 f5, hx =>
        have hw : write_file fs p content now = (.invalidDir, fs) := by
          simp [write_file, hv, hg', hx]
        rw [hw] at hok
        simp at hok
      | Node.dir pn pc pm pch, hx =>
        have hpch : ∃ nm cr,
            write_file fs p content now =
              (WStatus.ok, { fs with
                root := updateAtSpine fs.root (A ++ fNE D2)
                  (fun _ => Node.dir pn pc now
                    (setKey (nt_split p).2
                      (Node.file nm cr now content.length content) pch)) }) := by
          rcases hlk : lookupKey (nt_split p).2 pch with _ | exnode
          · refine ⟨(nt_split p).2, now, ?_⟩
            have hw : write_file fs p content now =
                (if get_free_space fs + (0 : Int) < (content.length : Int)
                 then (WStatus.noSpace, fs)
                 else (WStatus.ok, { fs with
                   root := updateAtSpine fs.root (A ++ fNE D2)
                     (fun _ => Node.dir pn pc now
                       (setKey (nt_split p).2
                         (Node.file (nt_split p).2 now now
                           content.length content) pch)) })) := by
              simp [write_file, hv, hg', hx, hlk]
            by_cases hsp : get_free_space fs + (0 : Int) <
                (content.length : Int)
            · rw [hw, if_pos hsp] at hok
              simp at hok
            · rw [hw, if_neg hsp]
          · match exnode, hlk with
            | Node.file fn fc fm fsz fco, hlk =>
              refine ⟨fn, fc, ?_⟩
              have hw : write_file fs p content now =
                  (if get_free_space fs + (fsz : Int) <
                      (content.length : Int)
                   then (WStatus.noSpace, fs)
                   else (WStatus.ok, { fs with
                     root := updateAtSpine fs.root (A ++ fNE D2)
                       (fun _ => Node.dir pn pc now
                         (setKey (nt_split p).2
                           (Node.file fn fc now
                             content.length content) pch)) })) := by
                simp [write_file, hv, hg', hx, hlk]
              by_cases hsp : get_free_space fs + (fsz : Int) <
                  (content.length : Int)
              · rw [hw, if_pos hsp] at hok
                simp at hok
              · rw [hw, if_neg hsp]
            | Node.dir dn dc dm dch, hlk =>
              refine ⟨(nt_split p).2, now, ?_⟩
              have hw : write_file fs p content now =
                  (if get_free_space fs + (0 : Int) <
                      (content.length : Int)
                   then (WStatus.noSpace, fs)
                   else (WStatus.ok, { fs with
                     root := updateAtSpine fs.root (A ++ fNE D2)
                       (fun _ => Node.dir pn pc now
                         (setKey (nt_split p).2
                           (Node.file (nt_split p).2 now now
                             content.length content) pch)) })) := by
                simp [write_file, hv, hg', hx, hlk]
              by_cases hsp : get_free_space fs + (0 : Int) <
                  (content.length : Int)
              · rw [hw, if_pos hsp] at hok
                simp at hok
              · rw [hw, if_neg hsp]
        obtain ⟨nm, cr, hw⟩ := hpch
        rw [hw]
        have hpaU := pathAnchor_update fs p A P2 (fNE D2) hpa
          (fun _ => Node.dir pn pc now
            (setKey (nt_split p).2
              (Node.file nm cr now content.length content) pch))
          (Node.dir pn pc pm pch) hx
        have hrn := resolveNode_char _ p A P2 hpaU
        rw [hP, ← List.append_assoc, nodeAtSpine_append] at hrn
        have hself := nodeAtSpine_updateAtSpine_self fs.root (A ++ fNE D2)
          (fun _ => Node.dir pn pc now
            (setKey (nt_split p).2
              (Node.file nm cr now content.length content) pch))
        rw [hx] at hself
        simp only [Option.map_some'] at hself
        rw [hself] at hrn
        simp only [Option.some_bind] at hrn
        have hstep : nodeAtSpine
            (Node.dir pn pc now
              (setKey (nt_split p).2
                (Node.file nm cr now content.length content) pch))
            [(nt_split p).2] =
            some (Node.file nm cr now content.length content) := by
          rw [nodeAtSpine, lookupKey_setKey_self]
          rfl
        rw [hstep] at hrn
        refine ⟨?_, ⟨nm, cr, hrn⟩, ?_⟩
        · rw [read_file, hrn]
        · intro hinv
          have hpinv : sizeInvL pch = true := by
            have := sizeInv_nodeAt fs.root (A ++ fNE D2) _ hinv hx
            simpa [sizeInv] using this
          exact sizeInv_updateAtSpine fs.root (A ++ fNE D2) _ hinv
            (by
              simp only [sizeInv]
              exact sizeInvL_setKey pch (nt_split p).2 _ hpinv
                (by simp [sizeInv]))
    · have hw : write_file fs p content now = (.invalidName, fs) := by
        simp [write_file, hv]
      rw [hw] at hok
      simp at hok

/-- Witness for the amended C1 round trip at a concrete aligned path. -/
theorem C1_amended_write_read_witness :
    read_file (write_file (initFS 0) (str "DOS\\NEW.TXT") (str "hi") 5).2
      (str "DOS\\NEW.TXT") = some (str "hi") ∧
    (∃ nm cr, resolveNode
        (write_file (initFS 0) (str "DOS\\NEW.TXT") (str "hi") 5).2
        (str "DOS\\NEW.TXT") =
      some (Node.file nm cr 5 (str "hi").length (str "hi"))) ∧
    (sizeInv (initFS 0).root = true →
      sizeInv (write_file (initFS 0) (str "DOS\\NEW.TXT")
        (str "hi") 5).2.root = true) :=
  C1_amended_write_read (initFS 0) (str "DOS\\NEW.TXT") (str "hi") 5
    [] [str "DOS", str "NEW.TXT"] [str "DOS"]
    (by decide) (by decide) (by decide) [str "DOS"] (by decide) (by decide)

end DosSim
